import Mathlib

/-!
Verification of the session-scoped logging subsystem
(`src/hooks/scripts/log-command.py`) against its natural-language
specification.

The Python source is shallowly embedded: the filesystem state touched by
each component is made explicit (association lists from names to file
contents, plus per-session state records), machine-level failures that the
source catches with `try/except` are made explicit failure flags, and each
Python function is translated statement by statement into a pure Lean
function over that state.  Filenames that the source builds and matches
with regular expressions over a fixed grammar are modelled structurally
(one constructor per grammatical form); the regex-matching helpers become
decidable predicates over the structured names.
-/

namespace SessLog

/-! ## String helpers shared by several components -/

/-- Substring test: `hasSub hay pat` holds when `pat` occurs contiguously in
`hay` (Python's `pat in hay`). -/
def listHasSub (hay pat : List Char) : Bool :=
  match hay with
  | [] => pat.isEmpty
  | _ :: t => pat.isPrefixOf hay || listHasSub t pat

/-- Python's `pat in hay` on strings. -/
def strHasSub (hay pat : String) : Bool :=
  listHasSub hay.toList pat.toList

/-- Python's `str.strip()` with no argument: remove leading and trailing
whitespace. -/
def pyStrip (s : String) : String :=
  String.mk ((s.toList.dropWhile Char.isWhitespace).reverse.dropWhile
    Char.isWhitespace |>.reverse)

/-- Python's `s.replace("\x00", "")`: drop every null byte (used by the
atomic append writer before writing, `log-command.py:1026` and `:1039`). -/
def stripNullBytes (s : String) : String :=
  String.mk (s.toList.filter (fun c => c ≠ Char.ofNat 0))

/-- Numeric value of an ASCII digit character. -/
def dval (c : Char) : Nat := c.toNat - 48

/-- Value of a big-endian ASCII digit string. -/
def decimalVal (cs : List Char) : Nat :=
  cs.foldl (fun a c => a * 10 + dval c) 0

/-- Python's `int(s)` on a decimal string: optional surrounding whitespace,
optional sign, at least one ASCII digit (`log-command.py:1556` feeds it the
stripped cache text; underscore separators and non-ASCII digits are out of
scope of this model). -/
def pyInt? (s : String) : Option Int :=
  match (pyStrip s).toList with
  | [] => none
  | c :: r =>
    let sd : Int × List Char :=
      if c = '-' then (-1, r) else if c = '+' then (1, r) else (1, c :: r)
    if sd.2 ≠ [] ∧ sd.2.all Char.isDigit then
      some (sd.1 * (decimalVal sd.2 : Nat))
    else none

/-! ## Flat filesystem model

A directory's regular files are an association list from filename to
content; insertion order doubles as the directory iteration order. -/

/-- A flat directory: filename to file content, in iteration order. -/
abbrev FS := List (String × String)

/-- Look up a file's content. -/
def FS.get? : FS → String → Option String
  | [], _ => none
  | (k', v') :: t, k => if k' = k then some v' else FS.get? t k

/-- Write (create or overwrite) a file. -/
def FS.set : FS → String → String → FS
  | [], k, v => [(k, v)]
  | (k', v') :: t, k, v =>
    if k' = k then (k, v) :: t else (k', v') :: FS.set t k v

theorem FS.get?_set_self (fs : FS) (k v : String) :
    (fs.set k v).get? k = some v := by
  induction fs with
  | nil => simp [FS.set, FS.get?]
  | cons p t ih =>
    by_cases h : p.1 = k <;> simp [FS.set, FS.get?, h, ih]

theorem FS.get?_set_ne (fs : FS) (k v k' : String) (h : k' ≠ k) :
    (fs.set k v).get? k' = fs.get? k' := by
  have hk : k ≠ k' := fun e => h e.symm
  induction fs with
  | nil => simp [FS.set, FS.get?, hk]
  | cons p t ih =>
    by_cases hp : p.1 = k
    · simp [FS.set, FS.get?, hp, hk]
    · simp only [FS.set, hp, if_false, FS.get?]
      by_cases hp' : p.1 = k' <;> simp [hp', ih]

/-! ## Atomic append writer (`atomic_append`, `_write_to_overflow`)

`log-command.py:1016-1089`.  The temp-file dance plus `shutil.move` either
replaces the target with the fully formed new content or (on an exception
anywhere in the `try` block) leaves the target untouched; the `finally`
block removes the temp file in both cases, so temp files never appear in
the final state.  The possibility of an exception in the atomic path, and
in the overflow append, are made explicit flags. -/

/-- Failure injection for one `atomic_append` call: `atomicFails` models an
exception anywhere in the temp-write/rename `try` block; `overflowFails`
models an exception in the fallback `open(..., "a")` append. -/
structure AppendFailure where
  atomicFails : Bool
  overflowFails : Bool
deriving DecidableEq

/-- The optional blank-line gap written ahead of the entry. -/
def gapStr (addGap : Bool) : String := if addGap then "\n" else ""

/-- Overflow filename: `{name}.overflow.{n}` (`log-command.py:1072`). -/
def overflowName (base : String) (n : Nat) : String :=
  base ++ ".overflow." ++ toString n

/-- The slot-search loop of `_write_to_overflow` (`log-command.py:1070-1080`):
starting at `n`, use the first overflow file that is missing or smaller
than 1 MB; give up (entry dropped) once the counter passes 100.  The loop
counter `n` only ever increases while at most 100, so the structural fuel
argument (always called with `101 - n` in reserve) never runs out and is a
pure termination device. -/
def findOverflowSlotAux (fs : FS) (base : String) : Nat → Nat → Option String
  | _, 0 => none
  | n, fuel + 1 =>
    let p := overflowName base n
    match fs.get? p with
    | none => some p
    | some c =>
      if c.utf8ByteSize < 1000000 then some p
      else if n + 1 > 100 then none
      else findOverflowSlotAux fs base (n + 1) fuel

/-- The slot search as `_write_to_overflow` starts it: `n = 1`. -/
def findOverflowSlot (fs : FS) (base : String) : Option String :=
  findOverflowSlotAux fs base 1 100

/-- `_write_to_overflow` (`log-command.py:1063-1089`): plain append of the
(already null-stripped) entry into the chosen overflow slot. -/
def writeToOverflow (fs : FS) (path content : String) (addGap : Bool)
    (overflowFails : Bool) : FS :=
  match findOverflowSlot fs path with
  | none => fs
  | some p =>
    if overflowFails then fs
    else fs.set p (((fs.get? p).getD "") ++ gapStr addGap ++ content ++ "\n")

/-- `atomic_append` (`log-command.py:1016-1060`): strip null bytes from the
new content, rebuild the whole file (existing content also null-stripped,
optional gap, new content plus newline) in a temp file and atomically
rename it over the target; on any failure fall back to the overflow file. -/
def atomic_append (fs : FS) (path content : String) (addGap : Bool)
    (fl : AppendFailure) : FS :=
  let content' := stripNullBytes content
  if fl.atomicFails then
    writeToOverflow fs path content' addGap fl.overflowFails
  else
    fs.set path
      (stripNullBytes ((fs.get? path).getD "") ++ gapStr addGap ++ content' ++ "\n")

theorem overflowName_ne_base (base : String) (n : Nat) :
    overflowName base n ≠ base := by
  intro h
  have hlen := congrArg String.length h
  rw [overflowName, String.length_append, String.length_append] at hlen
  have h10 : (".overflow." : String).length = 10 := rfl
  omega

theorem findOverflowSlotAux_ne_base (fs : FS) (base : String) (n fuel : Nat)
    (p : String) (h : findOverflowSlotAux fs base n fuel = some p) : p ≠ base := by
  induction fuel generalizing n with
  | zero => cases h
  | succ fuel ih =>
    rw [findOverflowSlotAux] at h
    revert h
    cases hg : fs.get? (overflowName base n) with
    | none =>
      intro h
      cases h
      exact overflowName_ne_base base n
    | some c =>
      intro h
      by_cases hsz : c.utf8ByteSize < 1000000
      · simp only [hsz, if_true] at h
        cases h
        exact overflowName_ne_base base n
      · simp only [hsz, if_false] at h
        by_cases hcap : n + 1 > 100
        · simp [hcap] at h
        · simp only [hcap, if_false] at h
          exact ih (n + 1) h

theorem findOverflowSlot_ne_base (fs : FS) (base : String) (p : String)
    (h : findOverflowSlot fs base = some p) : p ≠ base :=
  findOverflowSlotAux_ne_base fs base 1 100 p h

/-- C2: for every call to `atomic_append(file_path, content, add_gap)`: if the
atomic path succeeds, the target's new content is the prior content with null
bytes removed, then a blank line when `add_gap` is true, then the new content
with null bytes removed followed by a newline; if any step of the atomic path
fails, the target is byte-for-byte unchanged and (when the overflow append
itself succeeds and a slot within the 100-file cap is usable) the entry is
appended to the numbered overflow file chosen by the rolling search; in all
cases the target is either its old content or the fully formed new content,
never truncated or interleaved. -/
theorem c2_atomic_append (fs : FS) (path content : String) (addGap : Bool)
    (fl : AppendFailure) :
    (fl.atomicFails = false →
      (atomic_append fs path content addGap fl).get? path =
        some (stripNullBytes ((fs.get? path).getD "") ++ gapStr addGap ++
          stripNullBytes content ++ "\n")) ∧
    (fl.atomicFails = true →
      (atomic_append fs path content addGap fl).get? path = fs.get? path ∧
      (fl.overflowFails = false → ∀ p, findOverflowSlot fs path = some p →
        (atomic_append fs path content addGap fl).get? p =
          some (((fs.get? p).getD "") ++ gapStr addGap ++
            stripNullBytes content ++ "\n"))) ∧
    ((atomic_append fs path content addGap fl).get? path = fs.get? path ∨
      (atomic_append fs path content addGap fl).get? path =
        some (stripNullBytes ((fs.get? path).getD "") ++ gapStr addGap ++
          stripNullBytes content ++ "\n")) := by
  have hsucc : fl.atomicFails = false →
      (atomic_append fs path content addGap fl).get? path =
        some (stripNullBytes ((fs.get? path).getD "") ++ gapStr addGap ++
          stripNullBytes content ++ "\n") := by
    intro hf
    simp only [atomic_append, hf, Bool.false_eq_true, if_false]
    exact FS.get?_set_self _ _ _
  have hfail : fl.atomicFails = true →
      (atomic_append fs path content addGap fl).get? path = fs.get? path ∧
      (fl.overflowFails = false → ∀ p, findOverflowSlot fs path = some p →
        (atomic_append fs path content addGap fl).get? p =
          some (((fs.get? p).getD "") ++ gapStr addGap ++
            stripNullBytes content ++ "\n")) := by
    intro hf
    simp only [atomic_append, hf, if_true]
    rw [writeToOverflow]
    cases hslot : findOverflowSlot fs path with
    | none =>
      refine ⟨rfl, ?_⟩
      intro _ p hp
      cases hp
    | some p =>
      cases hov : fl.overflowFails with
      | true =>
        refine ⟨rfl, ?_⟩
        intro hcontra
        cases hcontra
      | false =>
        simp only [Bool.false_eq_true, if_false]
        constructor
        · exact FS.get?_set_ne fs p _ path
            (Ne.symm (findOverflowSlot_ne_base fs path p hslot))
        · intro _ p' hp'
          cases hp'
          exact FS.get?_set_self _ _ _
  refine ⟨hsucc, hfail, ?_⟩
  cases hf : fl.atomicFails with
  | false => exact Or.inr (hsucc hf)
  | true => exact Or.inl (hfail hf).1

/-- Witness for C2 at concrete inputs: the success branch on a file with a
null byte in the entry, and the failure branch's frame plus overflow append
on a one-file directory. -/
theorem c2_atomic_append_witness :
    ((atomic_append ([] : FS) "log" "a\x00b" true ⟨false, false⟩).get? "log" =
      some (stripNullBytes ((FS.get? [] "log").getD "") ++ gapStr true ++
        stripNullBytes "a\x00b" ++ "\n")) ∧
    ((atomic_append ([("log", "old\n")] : FS) "log" "x" false
        ⟨true, false⟩).get? "log" = FS.get? [("log", "old\n")] "log") ∧
    ((atomic_append ([("log", "old\n")] : FS) "log" "x" false
        ⟨true, false⟩).get? "log.overflow.1" =
      some ((FS.get? [("log", "old\n")] "log.overflow.1").getD "" ++
        gapStr false ++ stripNullBytes "x" ++ "\n")) :=
  ⟨(c2_atomic_append [] "log" "a\x00b" true ⟨false, false⟩).1 rfl,
   ((c2_atomic_append [("log", "old\n")] "log" "x" false ⟨true, false⟩).2.1 rfl).1,
   ((c2_atomic_append [("log", "old\n")] "log" "x" false ⟨true, false⟩).2.1
      rfl).2 rfl "log.overflow.1" (by decide)⟩

/-! ## Time-gap check (`check_time_gap`)

`log-command.py:970-1013`.  The last line's timestamp is extracted with
`re.search(r"\[\[([^\]]+)\]\]", last_line)` and parsed with
`datetime.strptime` against `"%Y-%m-%d %H:%M:%S"` then `"%Y-%m-%d"`.
The regex is modelled exactly (leftmost match, a nonempty bracket-free
token closed by `]]`).  `strptime` is modelled for ASCII digits: a
4-digit year, 1-2-digit month/day/hour/minute/second fields with the
ranges CPython's `_strptime` patterns accept, one-or-more whitespace for
the format's space, full-string match, and the `datetime` constructor's
calendar validation (year at least 1, day within the month, Gregorian
leap years); `datetime` subtraction becomes proleptic-Gregorian seconds
arithmetic.  A file is `none` when missing, otherwise its `readlines`
output. -/

/-- Try the regex `\[\[([^\]]+)\]\]` anchored at the head of `cs`: after
`[[`, a nonempty run of non-`]` characters must be closed by `]]`. -/
def tsTokenAt (cs : List Char) : Option (List Char) :=
  match cs with
  | '[' :: '[' :: rest =>
    let run := rest.takeWhile (fun c => c ≠ ']')
    let tail := rest.drop run.length
    if run = [] then none
    else
      match tail with
      | ']' :: ']' :: _ => some run
      | _ => none
  | _ => none

/-- `re.search`: the leftmost position where the pattern matches. -/
def extractTs : List Char → Option (List Char)
  | [] => none
  | c :: t =>
    match tsTokenAt (c :: t) with
    | some tok => some tok
    | none => extractTs t

/-- Exactly four digits (CPython's `%Y` pattern). -/
def parse4 : List Char → Option (Nat × List Char)
  | a :: b :: c :: d :: rest =>
    if a.isDigit ∧ b.isDigit ∧ c.isDigit ∧ d.isDigit then
      some ((((dval a * 10 + dval b) * 10 + dval c) * 10 + dval d), rest)
    else none
  | _ => none

/-- A one-or-two-digit field: two-digit values must lie in `[lo2, hi2]`,
one-digit values in `[lo1, hi1]` (the value ranges of CPython's
`%m`/`%d`/`%H`/`%M`/`%S` patterns; a valid two-digit read is never undone
because every following format token rejects a digit). -/
def parseField (lo1 hi1 lo2 hi2 : Nat) : List Char → Option (Nat × List Char)
  | [] => none
  | [a] =>
    if a.isDigit ∧ lo1 ≤ dval a ∧ dval a ≤ hi1 then some (dval a, []) else none
  | a :: b :: rest =>
    if a.isDigit then
      if b.isDigit then
        let v := dval a * 10 + dval b
        if lo2 ≤ v ∧ v ≤ hi2 then some (v, rest) else none
      else
        if lo1 ≤ dval a ∧ dval a ≤ hi1 then some (dval a, b :: rest) else none
    else none

/-- One literal character of the format. -/
def expectChar (c : Char) : List Char → Option (List Char)
  | [] => none
  | a :: rest => if a = c then some rest else none

/-- The format's space compiles to `\s+`: one or more whitespace. -/
def skipWs1 (cs : List Char) : Option (List Char) :=
  let run := cs.takeWhile Char.isWhitespace
  if run = [] then none else some (cs.drop run.length)

/-- Gregorian leap year. -/
def isLeap (y : Nat) : Bool := y % 4 = 0 ∧ (y % 100 ≠ 0 ∨ y % 400 = 0)

/-- Length of month `m` (1-12) in year `y`. -/
def daysInMonth (y m : Nat) : Nat :=
  if m = 2 then (if isLeap y then 29 else 28)
  else if m = 4 ∨ m = 6 ∨ m = 9 ∨ m = 11 then 30
  else 31

/-- Days in the months strictly before `m` of a non-leap year. -/
def cumDays (m : Nat) : Nat :=
  match m with
  | 1 => 0 | 2 => 31 | 3 => 59 | 4 => 90 | 5 => 120 | 6 => 151
  | 7 => 181 | 8 => 212 | 9 => 243 | 10 => 273 | 11 => 304 | _ => 334

/-- The `datetime` constructor's validation relevant here: year at least 1
(four digits cap it at 9999) and day within the month. -/
def validDate (y m d : Nat) : Bool := 1 ≤ y ∧ d ≤ daysInMonth y m

/-- Proleptic-Gregorian day count since 0001-01-01 (what `datetime`
subtraction measures dates by). -/
def daysFromCivil (y m d : Nat) : Nat :=
  365 * (y - 1) + ((y - 1) / 4 - (y - 1) / 100 + (y - 1) / 400) +
    cumDays m + (if 2 < m ∧ isLeap y then 1 else 0) + (d - 1)

/-- Seconds-since-0001-01-01 of a civil datetime. -/
def tsOf (y m d h mi s : Nat) : Int :=
  ((daysFromCivil y m d * 86400 + h * 3600 + mi * 60 + s : Nat) : Int)

/-- `datetime.strptime(tok, "%Y-%m-%d %H:%M:%S")`, as seconds. -/
def parseFullTok (cs : List Char) : Option Int := do
  let (y, r1) ← parse4 cs
  let r2 ← expectChar '-' r1
  let (m, r3) ← parseField 1 9 1 12 r2
  let r4 ← expectChar '-' r3
  let (d, r5) ← parseField 1 9 1 31 r4
  let r6 ← skipWs1 r5
  let (h, r7) ← parseField 0 9 0 23 r6
  let r8 ← expectChar ':' r7
  let (mi, r9) ← parseField 0 9 0 59 r8
  let r10 ← expectChar ':' r9
  let (s, r11) ← parseField 0 9 0 59 r10
  if r11 = [] ∧ validDate y m d then some (tsOf y m d h mi s) else none

/-- `datetime.strptime(tok, "%Y-%m-%d")`, as seconds (midnight). -/
def parseDateTok (cs : List Char) : Option Int := do
  let (y, r1) ← parse4 cs
  let r2 ← expectChar '-' r1
  let (m, r3) ← parseField 1 9 1 12 r2
  let r4 ← expectChar '-' r3
  let (d, r5) ← parseField 1 9 1 31 r4
  if r5 = [] ∧ validDate y m d then some (tsOf y m d 0 0 0) else none

/-- The `for fmt in (...)` loop of `log-command.py:999-1006`: date+time
first, then date-only. -/
def parseTs (cs : List Char) : Option Int :=
  match parseFullTok cs with
  | some t => some t
  | none => parseDateTok cs

/-- `check_time_gap` (`log-command.py:970-1013`): a file is `none` when
missing, `some lines` its `readlines` output.  `eventTime` and
`gapSeconds` in seconds. -/
def check_time_gap (file : Option (List String)) (datetimeMode : String)
    (eventTime gapSeconds : Int) : Bool :=
  match file with
  | none => false
  | some lines =>
    if datetimeMode = "none" then false
    else if lines = [] then false
    else
      match extractTs (lines.getLastD "").toList with
      | none => false
      | some tok =>
        match parseTs tok with
        | none => false
        | some t => gapSeconds ≤ eventTime - t

/-- C7 (amended): for every existing log file and datetime mode other than
`"none"`, `check_time_gap` reports a gap exactly when the last line carries a
timestamp parseable in one of the two supported formats (date+time,
date-only) and the elapsed time from it to the event time is at least the
1800-second threshold (the source compares with `>=`, so a gap is already
reported at exactly 1800 seconds); it reports no gap whenever the file is
missing, the file is empty, the mode is `"none"`, or the last line's
timestamp fails to extract or parse. -/
theorem c7_time_gap_amended (file : Option (List String)) (mode : String)
    (evt : Int) :
    check_time_gap file mode evt 1800 = true ↔
      (mode ≠ "none" ∧ ∃ lines tok t, file = some lines ∧ lines ≠ [] ∧
        extractTs (lines.getLastD "").toList = some tok ∧
        parseTs tok = some t ∧ 1800 ≤ evt - t) := by
  constructor
  · intro h
    match file with
    | none => simp [check_time_gap] at h
    | some lines =>
      rw [check_time_gap] at h
      by_cases hm : mode = "none"
      · simp [hm] at h
      · simp only [hm, if_false] at h
        by_cases hl : lines = []
        · simp [hl] at h
        · simp only [hl, if_false] at h
          revert h
          cases hex : extractTs (lines.getLastD "").toList with
          | none => intro h; simp at h
          | some tok =>
            intro h
            have h' : (match parseTs tok with
                | none => false
                | some t => decide ((1800 : Int) ≤ evt - t)) = true := h
            cases hp : parseTs tok with
            | none => rw [hp] at h'; cases h'
            | some t =>
              rw [hp] at h'
              exact ⟨hm, lines, tok, t, rfl, hl, hex, hp, of_decide_eq_true h'⟩
  · rintro ⟨hm, lines, tok, t, rfl, hl, hex, hp, hle⟩
    rw [check_time_gap]
    simp only [hm, if_false, hl, hex, hp]
    exact decide_eq_true hle

/-- C7 counterexample to the claim as stated: with the last entry stamped
2024-01-01 00:00:00 and the event at 00:30:00 the elapsed time is exactly
1800 seconds — it does not exceed the threshold — yet the code reports a
gap, because the source compares with `>=` rather than `>`. -/
theorem c7_counterexample :
    check_time_gap (some ["x [[2024-01-01 00:00:00]]"]) "full"
        (tsOf 2024 1 1 0 30 0) 1800 = true ∧
    ¬ (1800 < tsOf 2024 1 1 0 30 0 - tsOf 2024 1 1 0 0 0) ∧
    extractTs ((["x [[2024-01-01 00:00:00]]"] : List String).getLastD
        "").toList = some "2024-01-01 00:00:00".toList ∧
    parseTs "2024-01-01 00:00:00".toList = some (tsOf 2024 1 1 0 0 0) := by
  refine ⟨by decide, by decide, by decide, by decide⟩

/-! ## Session naming resolver (`get_session_name`)

`log-command.py:205-266`.  A transcript line is kept as its raw text (the
source filters lines by substring before parsing) plus the abstracted
result of `json.loads`: `none` when the line is not valid JSON, otherwise
the value of the object's `customTitle` field (`none` when absent or
null).  The sessions index is the abstracted `entries` array; the cache is
the cache file's text.  `none` for transcript/index/cache means the file
is missing or its read raised (both are absorbed by the source's
`try/except` blocks in the same way). -/

/-- One line of the transcript `.jsonl`. -/
structure TLine where
  text : String
  parsed : Option (Option String)
deriving DecidableEq

/-- One entry of `sessions-index.json`. -/
structure IEntry where
  sessionId : String
  customTitle : Option String
deriving DecidableEq

/-- The world `get_session_name` reads. -/
structure NameEnv where
  transcript : Option (List TLine)
  sessionsIndex : Option (List IEntry)
  cache : Option String
deriving DecidableEq

/-- Python truthiness of an optional string (`None` and `""` are falsy). -/
def pyTruthy : Option String → Bool
  | none => false
  | some s => s ≠ ""

/-- The line filter of `log-command.py:226`: the raw line contains
`"type":"custom-title"` or `"type": "custom-title"`. -/
def hasTitleMarker (l : TLine) : Bool :=
  strHasSub l.text "\x22type\x22:\x22custom-title\x22" ||
    strHasSub l.text "\x22type\x22: \x22custom-title\x22"

/-- One iteration of the transcript loop (`log-command.py:226-231`): a
marker line that parses and has a truthy `customTitle` overwrites the
accumulator. -/
def titleStep (acc : Option String) (l : TLine) : Option String :=
  if hasTitleMarker l then
    match l.parsed with
    | some ct => if pyTruthy ct then ct else acc
    | none => acc
  else acc

/-- The transcript loop (`log-command.py:225-231`): iterate over all lines;
the last truthy custom title wins. -/
def scanTranscript (ls : List TLine) : Option String :=
  ls.foldl titleStep none

/-- The truthy custom titles of the transcript, in order. -/
def titleRecords (ls : List TLine) : List String :=
  ls.filterMap
    (fun l =>
      if hasTitleMarker l then
        match l.parsed with
        | some (some s) => if s ≠ "" then some s else none
        | _ => none
      else none)

/-- The index loop (`log-command.py:243-246`): first entry whose
`sessionId` matches, taking its `customTitle` as-is and breaking. -/
def indexLookup (entries : List IEntry) (sid : String) : Option String :=
  match entries.find? (fun e => e.sessionId = sid) with
  | some e => e.customTitle
  | none => none

/-- Method 1 of `get_session_name` as a value: what the transcript yields
(only attempted when the transcript path is truthy and the file exists and
reads). -/
def transcriptName (env : NameEnv) (transcriptPath : String) : Option String :=
  if transcriptPath ≠ "" then
    match env.transcript with
    | some ls => scanTranscript ls
    | none => none
  else none

/-- Methods 1-2 of `get_session_name` as a value: the session name variable
just before the cache fallback (`log-command.py:250`). -/
def preCacheName (env : NameEnv) (sid : String) (transcriptPath : String) :
    Option String :=
  let n1 := transcriptName env transcriptPath
  if transcriptPath = "" then n1
  else if pyTruthy n1 then n1
  else
    match env.sessionsIndex with
    | some es => indexLookup es sid
    | none => n1

/-- `get_session_name` (`log-command.py:205-266`): returns the resolved
name and the new content of the per-session name cache (the write-through
of `log-command.py:260-264`; its `try/except` write is modelled as
succeeding). -/
def get_session_name (env : NameEnv) (sid : String) (transcriptPath : String) :
    Option String × Option String :=
  let n2 := preCacheName env sid transcriptPath
  let n3 :=
    if ¬ pyTruthy n2 then
      match env.cache with
      | some ctext => if pyStrip ctext ≠ "" then some (pyStrip ctext) else n2
      | none => n2
    else n2
  (n3, if pyTruthy n3 then n3 else env.cache)

theorem foldl_titleStep (ls : List TLine) (acc : Option String) :
    ls.foldl titleStep acc =
      match (titleRecords ls).getLast? with
      | some x => some x
      | none => acc := by
  induction ls generalizing acc with
  | nil => simp [titleRecords]
  | cons l t ih =>
    rw [List.foldl_cons, ih (titleStep acc l)]
    have hrec : titleRecords (l :: t) =
        (if hasTitleMarker l then
          match l.parsed with
          | some (some s) => if s ≠ "" then some s else none
          | _ => none
        else none).toList ++ titleRecords t := by
      rw [titleRecords, List.filterMap_cons]
      cases hop : (if hasTitleMarker l then
          match l.parsed with
          | some (some s) => if s ≠ "" then some s else none
          | _ => none
        else none) <;> simp [hop, titleRecords]
    by_cases hm : hasTitleMarker l
    · cases hp : l.parsed with
      | none =>
        simp only [titleStep, hm, if_true, hp]
        rw [hrec]
        simp [hm, hp]
      | some ct =>
        cases ct with
        | none =>
          simp only [titleStep, hm, if_true, hp, pyTruthy, if_false]
          rw [hrec]
          simp [hm, hp]
        | some s =>
          by_cases hs : s = ""
          · subst hs
            simp only [titleStep, hm, if_true, hp, pyTruthy]
            rw [hrec]
            simp [hm, hp]
          · simp only [titleStep, hm, if_true, hp, pyTruthy, hs, if_true]
            rw [hrec]
            simp only [hm, if_true, hp, hs, ite_not]
            cases htr : (titleRecords t).getLast? with
            | some x =>
              cases htl : titleRecords t with
              | nil => rw [htl] at htr; cases htr
              | cons y ys =>
                rw [htl] at htr
                simp [List.getLast?_cons_cons, htr]
            | none =>
              have hemp : titleRecords t = [] :=
                List.getLast?_eq_none_iff.mp htr
              simp [hemp, hs]
    · simp only [titleStep, hm, if_false]
      rw [hrec]
      simp [hm]

theorem scanTranscript_eq_last (ls : List TLine) :
    scanTranscript ls = (titleRecords ls).getLast? := by
  rw [scanTranscript, foldl_titleStep]
  cases (titleRecords ls).getLast? <;> rfl

theorem titleRecords_ne_empty {ls : List TLine} {s : String}
    (h : s ∈ titleRecords ls) : s ≠ "" := by
  rw [titleRecords, List.mem_filterMap] at h
  obtain ⟨l, _, hl⟩ := h
  by_cases hm : hasTitleMarker l
  · simp only [hm, if_true] at hl
    cases hp : l.parsed with
    | none => rw [hp] at hl; cases hl
    | some ct =>
      rw [hp] at hl
      cases ct with
      | none => cases hl
      | some v =>
        by_cases hv : v = ""
        · simp [hv] at hl
        · simp only [hv, ite_not, if_neg, if_pos] at hl
          · cases hl
            exact hv
  · simp [hm] at hl

/-- C3: for every session id and transcript path, `get_session_name` returns
the custom title of the last transcript record bearing one when any exists
(regardless of the index and cache contents); consults the sessions index
for that session id only when the transcript yields no name (and the cache
cannot override an index hit); consults the persisted per-session name
cache only when both transcript and index yield none; and any name found is
written through to the cache, which is otherwise left unchanged. -/
theorem c3_get_session_name (env : NameEnv) (sid tp : String) :
    (∀ ls n, tp ≠ "" → (titleRecords ls).getLast? = some n →
      ∀ idx c, (get_session_name ⟨some ls, idx, c⟩ sid tp).1 = some n) ∧
    (∀ es m, tp ≠ "" → transcriptName env tp = none →
      indexLookup es sid = some m → m ≠ "" →
      ∀ c, (get_session_name ⟨env.transcript, some es, c⟩ sid tp).1 = some m) ∧
    (¬ pyTruthy (preCacheName env sid tp) →
      (get_session_name env sid tp).1 =
        match env.cache with
        | some ctext =>
          if pyStrip ctext ≠ "" then some (pyStrip ctext)
          else preCacheName env sid tp
        | none => preCacheName env sid tp) ∧
    (pyTruthy (get_session_name env sid tp).1 →
      (get_session_name env sid tp).2 = (get_session_name env sid tp).1) ∧
    (¬ pyTruthy (get_session_name env sid tp).1 →
      (get_session_name env sid tp).2 = env.cache) := by
  refine ⟨?_, ?_, ?_, ?_, ?_⟩
  · intro ls n htp hlast idx c
    have hscan : scanTranscript ls = some n := by
      rw [scanTranscript_eq_last, hlast]
    have hmem : n ∈ titleRecords ls := by
      obtain ⟨hne', hx⟩ := List.mem_getLast?_eq_getLast
        (show n ∈ (titleRecords ls).getLast? from hlast)
      rw [hx]
      exact List.getLast_mem hne'
    have hne : n ≠ "" := titleRecords_ne_empty hmem
    have ht1 : transcriptName ⟨some ls, idx, c⟩ tp = some n := by
      rw [transcriptName]
      simp [htp, hscan]
    have htruthy : pyTruthy (some n) = true := by
      simp [pyTruthy, hne]
    have hpre : preCacheName ⟨some ls, idx, c⟩ sid tp = some n := by
      rw [preCacheName, ht1]
      simp [htp, htruthy]
    rw [get_session_name, hpre]
    simp [htruthy]
  · intro es m htp htn hidx hm c
    have ht1 : transcriptName ⟨env.transcript, some es, c⟩ tp = none := by
      rw [transcriptName] at htn ⊢
      exact htn
    have hpre : preCacheName ⟨env.transcript, some es, c⟩ sid tp = some m := by
      rw [preCacheName, ht1]
      simp [htp, pyTruthy, hidx]
    have htruthy : pyTruthy (some m) = true := by
      simp [pyTruthy, hm]
    rw [get_session_name, hpre]
    simp [htruthy]
  · intro hfal
    rw [get_session_name]
    simp only [hfal, not_false_eq_true, if_true]
    cases env.cache <;> simp
  · intro htr
    rw [get_session_name] at htr ⊢
    simp only at htr ⊢
    rw [if_pos htr]
  · intro hfal
    rw [get_session_name] at hfal ⊢
    simp only at hfal ⊢
    rw [if_neg hfal]

/-- Witness for C3 at concrete inputs: a transcript with two renames (the
later one wins over index and cache), an index hit with no transcript, a
cache fallback with neither, and the write-through refresh. -/
theorem c3_get_session_name_witness :
    ((get_session_name
        ⟨some [⟨"\x22type\x22:\x22custom-title\x22", some (some "alpha")⟩,
               ⟨"\x22type\x22:\x22custom-title\x22", some (some "beta")⟩],
         some [⟨"s", some "gamma"⟩], some "delta"⟩ "s" "/t").1 = some "beta") ∧
    ((get_session_name ⟨none, some [⟨"s", some "gamma"⟩], some "x"⟩
        "s" "/t").1 = some "gamma") ∧
    ((get_session_name ⟨none, none, some " delta "⟩ "s" "/t").1 =
      some "delta") ∧
    ((get_session_name ⟨none, none, some " delta "⟩ "s" "/t").2 =
      (get_session_name ⟨none, none, some " delta "⟩ "s" "/t").1) := by
  refine ⟨?_, ?_, ?_, ?_⟩
  · exact (c3_get_session_name ⟨none, none, none⟩ "s" "/t").1
      [⟨"\x22type\x22:\x22custom-title\x22", some (some "alpha")⟩,
       ⟨"\x22type\x22:\x22custom-title\x22", some (some "beta")⟩]
      "beta" (by decide) (by decide) (some [⟨"s", some "gamma"⟩]) (some "delta")
  · exact (c3_get_session_name ⟨none, none, none⟩ "s" "/t").2.1
      [⟨"s", some "gamma"⟩] "gamma" (by decide) (by decide) (by decide)
      (by decide) (some "x")
  · have h := (c3_get_session_name ⟨none, none, some " delta "⟩ "s" "/t").2.2.1
      (by decide)
    rw [h]
    decide
  · exact (c3_get_session_name ⟨none, none, some " delta "⟩ "s" "/t").2.2.2.1
      (by decide)

/-! ## Run/marker tracker (`count_session_markers`, `get_run_number`)

`log-command.py:1527-1570`.  The run-number cache is the text of
`{session_id}.run` when that file exists; the unified log is its list of
lines.  `str(run_number)` is modelled by `decimalRepr`; cache writes are
modelled as succeeding (the source ignores `OSError` on the write). -/

/-- The ASCII digit character of `d` (for `d` up to 9). -/
def digitChar : Nat → Char
  | 0 => '0' | 1 => '1' | 2 => '2' | 3 => '3' | 4 => '4'
  | 5 => '5' | 6 => '6' | 7 => '7' | 8 => '8' | _ => '9'

/-- Big-endian decimal digits of `n`; the fuel (always at least the digit
count) is a structural termination device. -/
def decimalReprAux : Nat → Nat → List Char
  | 0, _ => []
  | fuel + 1, n =>
    if n < 10 then [digitChar n]
    else decimalReprAux fuel (n / 10) ++ [digitChar (n % 10)]

/-- Python's `str(n)` for a natural number. -/
def decimalRepr (n : Nat) : String := String.mk (decimalReprAux (n + 1) n)

theorem dval_digitChar {d : Nat} (h : d < 10) : dval (digitChar d) = d := by
  interval_cases d <;> decide

theorem isDigit_digitChar {d : Nat} (h : d < 10) : (digitChar d).isDigit = true := by
  interval_cases d <;> decide

theorem decimalReprAux_spec (fuel n : Nat) (hf : n < fuel) :
    decimalReprAux fuel n ≠ [] ∧
    (∀ c ∈ decimalReprAux fuel n, c.isDigit = true) ∧
    decimalVal (decimalReprAux fuel n) = n := by
  induction fuel generalizing n with
  | zero => omega
  | succ fuel ih =>
    by_cases h10 : n < 10
    · refine ⟨by simp [decimalReprAux, h10], ?_, ?_⟩
      · intro c hc
        simp [decimalReprAux, h10] at hc
        rw [hc]
        exact isDigit_digitChar h10
      · simp [decimalReprAux, h10, decimalVal, dval_digitChar h10]
    · have hdiv : n / 10 < fuel := by
        have h1 : n / 10 < n := Nat.div_lt_self (by omega) (by omega)
        omega
      obtain ⟨hne, hdig, hval⟩ := ih (n / 10) hdiv
      rw [decimalReprAux]
      simp only [h10, if_false]
      refine ⟨by simp, ?_, ?_⟩
      · intro c hc
        rw [List.mem_append] at hc
        rcases hc with hc | hc
        · exact hdig c hc
        · simp at hc
          rw [hc]
          exact isDigit_digitChar (Nat.mod_lt _ (by omega))
      · rw [decimalVal, List.foldl_append]
        have hmod : n % 10 < 10 := Nat.mod_lt _ (by omega)
        show decimalVal (decimalReprAux fuel (n / 10)) * 10 +
          dval (digitChar (n % 10)) = n
        rw [hval, dval_digitChar hmod]
        omega

theorem digit_not_whitespace {c : Char} (h : c.isDigit = true) :
    c.isWhitespace = false := by
  cases hw : c.isWhitespace with
  | false => rfl
  | true =>
    exfalso
    simp only [Char.isWhitespace, Bool.or_eq_true, decide_eq_true_eq] at hw
    rcases hw with ((h1 | h1) | h1) | h1 <;> rw [h1] at h <;>
      exact absurd h (by decide)

theorem dropWhile_all_false {p : Char → Bool} {l : List Char}
    (h : ∀ c ∈ l, p c = false) : l.dropWhile p = l := by
  cases l with
  | nil => rfl
  | cons c t =>
    rw [List.dropWhile_cons, h c (List.mem_cons_self c t)]
    simp

theorem digit_ne_sign {c : Char} (h : c.isDigit = true) : c ≠ '-' ∧ c ≠ '+' := by
  constructor <;> intro he <;> rw [he] at h <;> cases h

theorem pyStrip_digits (cs : List Char) (hd : ∀ c ∈ cs, c.isDigit = true) :
    pyStrip (String.mk cs) = String.mk cs := by
  rw [pyStrip]
  have htl : (String.mk cs).toList = cs := rfl
  rw [htl]
  have h1 : cs.dropWhile Char.isWhitespace = cs :=
    dropWhile_all_false (fun c hc => digit_not_whitespace (hd c hc))
  have h2 : cs.reverse.dropWhile Char.isWhitespace = cs.reverse :=
    dropWhile_all_false
      (fun c hc => digit_not_whitespace (hd c (List.mem_reverse.mp hc)))
  rw [h1, h2, List.reverse_reverse]

theorem pyInt?_decimalRepr (n : Nat) : pyInt? (decimalRepr n) = some (n : Int) := by
  obtain ⟨hne, hdig, hval⟩ := decimalReprAux_spec (n + 1) n (by omega)
  rw [pyInt?, decimalRepr, pyStrip_digits _ hdig]
  have htl : (String.mk (decimalReprAux (n + 1) n)).toList =
      decimalReprAux (n + 1) n := rfl
  rw [htl]
  cases hcs : decimalReprAux (n + 1) n with
  | nil => exact absurd hcs hne
  | cons c r =>
    have hcd : c.isDigit = true := hdig c (by rw [hcs]; exact List.mem_cons_self c r)
    obtain ⟨hm, hp⟩ := digit_ne_sign hcd
    simp only [hm, hp, if_false, reduceCtorEq, ne_eq, not_false_eq_true, true_and]
    rw [if_pos]
    · rw [← hcs, hval]
      simp
    · rw [List.all_eq_true]
      intro x hx
      exact hdig x (by rw [hcs]; exact hx)

theorem toList_append (a b : String) : (a ++ b).toList = a.toList ++ b.toList := by
  simp [String.toList]

theorem listHasSub_of_prefixOf {hay pat : List Char}
    (h : pat.isPrefixOf hay = true) : listHasSub hay pat = true := by
  cases hay with
  | nil =>
    cases pat with
    | nil => rfl
    | cons p ps => simp [List.isPrefixOf] at h
  | cons c t => rw [listHasSub, h, Bool.true_or]

theorem strHasSub_append_of_prefixOf (a b pat : String)
    (h : pat.toList.isPrefixOf a.toList = true) :
    strHasSub (a ++ b) pat = true := by
  rw [strHasSub, toList_append]
  refine listHasSub_of_prefixOf ?_
  rw [List.isPrefixOf_iff_prefix] at h ⊢
  exact h.trans (List.prefix_append _ _)

/-- The marker signature `SESSION_MARKER_SIGNATURE` (`log-command.py:1097`). -/
def SESSION_MARKER_SIGNATURE : String := "═══ SESSION"

/-- `count_session_markers` (`log-command.py:1527-1541`): number of lines of
the file containing the signature (0 when the file is missing). -/
def count_session_markers (file : Option (List String)) : Nat :=
  match file with
  | none => 0
  | some ls =>
    (ls.filter (fun l => strHasSub l SESSION_MARKER_SIGNATURE)).length

/-- The state `get_run_number` touches: the `{session_id}.run` cache file's
text (if present) and the target log file's lines. -/
structure RunEnv where
  runCache : Option String
  logFile : Option (List String)
deriving DecidableEq

/-- `get_run_number` (`log-command.py:1544-1570`): return the cached value
when the cache file exists and its stripped text parses as an int;
otherwise count markers, add one, persist, and return that. -/
def get_run_number (env : RunEnv) : Int × RunEnv :=
  let slow : Int × RunEnv :=
    let r : Nat := count_session_markers env.logFile + 1
    ((r : Int), { env with runCache := some (decimalRepr r) })
  match env.runCache with
  | some s =>
    match pyInt? s with
    | some n => (n, env)
    | none => slow
  | none => slow

/-- The line block `write_session_marker` appends (`log-command.py:1591-1610`):
after `marker.strip()`, a bar of `═`, the `═══ SESSION START` line carrying
timestamp, run number and name (or the unnamed placeholder), and a closing
bar.  Modelling the block as three lines encodes that the timestamp and
name carry no newline. -/
def markerBar : String := String.mk (List.replicate 80 '═')

def markerLines (ts : String) (name : Option String) (run : Int) : List String :=
  [markerBar,
   "═══ SESSION START  •  " ++ (ts ++ ("  •  Run #" ++ (toString run ++
     ("  •  " ++ (match name with | some n => n | none => "(unnamed)"))))),
   markerBar]

theorem marker_signature_once (ts : String) (name : Option String) (run : Int) :
    ((markerLines ts name run).filter
      (fun l => strHasSub l SESSION_MARKER_SIGNATURE)).length = 1 := by
  have hbar : strHasSub markerBar SESSION_MARKER_SIGNATURE = false := by decide
  have hmid : strHasSub ("═══ SESSION START  •  " ++ (ts ++ ("  •  Run #" ++
      (toString run ++ ("  •  " ++
        (match name with | some n => n | none => "(unnamed)"))))))
      SESSION_MARKER_SIGNATURE = true :=
    strHasSub_append_of_prefixOf _ _ _ (by decide)
  rw [markerLines.eq_def]
  rw [List.filter_cons, List.filter_cons, List.filter_cons]
  rw [hbar, hmid]
  simp

/-- C6: `get_run_number` returns the persisted run counter when it exists
and parses as an integer; otherwise it returns one plus the number of
session-marker lines in the target log and persists that value; calling it
again on the resulting state returns the same number without changing the
state (stability within one run, recoverability after the persisted state
is deleted); and appending one marker block to the log file increases the
freshly computed run number by exactly one (one more run, one higher
number). -/
theorem c6_get_run_number (env : RunEnv) :
    (∀ s n, env.runCache = some s → pyInt? s = some n →
      get_run_number env = (n, env)) ∧
    (env.runCache = none →
      get_run_number env =
        (((count_session_markers env.logFile + 1 : Nat) : Int),
         ⟨some (decimalRepr (count_session_markers env.logFile + 1)),
          env.logFile⟩)) ∧
    (∀ s, env.runCache = some s → pyInt? s = none →
      get_run_number env =
        (((count_session_markers env.logFile + 1 : Nat) : Int),
         ⟨some (decimalRepr (count_session_markers env.logFile + 1)),
          env.logFile⟩)) ∧
    (get_run_number (get_run_number env).2 =
      ((get_run_number env).1, (get_run_number env).2)) ∧
    (∀ lines ts name run,
      (get_run_number ⟨none, some (lines ++ markerLines ts name run)⟩).1 =
        (get_run_number ⟨none, some lines⟩).1 + 1) := by
  have hslow : ∀ e : RunEnv,
      (e.runCache = none ∨ ∃ s, e.runCache = some s ∧ pyInt? s = none) →
      get_run_number e =
        (((count_session_markers e.logFile + 1 : Nat) : Int),
         ⟨some (decimalRepr (count_session_markers e.logFile + 1)),
          e.logFile⟩) := by
    intro e he
    rcases he with he | ⟨s, hs, hp⟩
    · rw [get_run_number, he]
    · rw [get_run_number, hs]
      simp only [hp]
  refine ⟨?_, ?_, ?_, ?_, ?_⟩
  · intro s n hs hp
    rw [get_run_number, hs]
    simp only [hp]
  · intro h
    exact hslow env (Or.inl h)
  · intro s hs hp
    exact hslow env (Or.inr ⟨s, hs, hp⟩)
  · cases hc : env.runCache with
    | some s =>
      cases hp : pyInt? s with
      | some n =>
        have h1 : get_run_number env = (n, env) := by
          rw [get_run_number, hc]
          simp only [hp]
        rw [h1, h1]
      | none =>
        have h1 := hslow env (Or.inr ⟨s, hc, hp⟩)
        rw [h1]
        rw [get_run_number]
        simp only [pyInt?_decimalRepr]
    | none =>
      have h1 := hslow env (Or.inl hc)
      rw [h1]
      rw [get_run_number]
      simp only [pyInt?_decimalRepr]
  · intro lines ts name run
    have hcount : count_session_markers (some (lines ++ markerLines ts name run)) =
        count_session_markers (some lines) + 1 := by
      rw [count_session_markers, count_session_markers, List.filter_append,
        List.length_append, marker_signature_once]
    have h1 := hslow ⟨none, some (lines ++ markerLines ts name run)⟩ (Or.inl rfl)
    have h2 := hslow ⟨none, some lines⟩ (Or.inl rfl)
    rw [h1, h2]
    simp only
    rw [hcount]
    push_cast
    ring

/-- Witness for C6 at concrete inputs: a valid cache value is returned
as-is; with no cache the run number is one plus the marker count of a
two-marker log and is persisted; a second call is stable; and appending a
marker block bumps the fresh count by one. -/
theorem c6_get_run_number_witness :
    (get_run_number ⟨some " 7 ", some []⟩ = (7, ⟨some " 7 ", some []⟩)) ∧
    (get_run_number ⟨none, some ["a", "═══ SESSION START  •  x", "b",
        "═══ SESSION START  •  y"]⟩ =
      (3, ⟨some (decimalRepr 3), some ["a", "═══ SESSION START  •  x", "b",
        "═══ SESSION START  •  y"]⟩)) ∧
    (get_run_number (get_run_number ⟨none, some ["x"]⟩).2 =
      ((get_run_number ⟨none, some ["x"]⟩).1,
       (get_run_number ⟨none, some ["x"]⟩).2)) ∧
    ((get_run_number ⟨none, some (["x"] ++ markerLines "t" none 1)⟩).1 =
      (get_run_number ⟨none, some ["x"]⟩).1 + 1) := by
  refine ⟨?_, ?_, ?_, ?_⟩
  · exact (c6_get_run_number ⟨some " 7 ", some []⟩).1 " 7 " 7 rfl (by decide)
  · have h := (c6_get_run_number ⟨none, some ["a", "═══ SESSION START  •  x",
        "b", "═══ SESSION START  •  y"]⟩).2.1 rfl
    rw [h]
    decide
  · exact (c6_get_run_number ⟨none, some ["x"]⟩).2.2.2.1
  · exact (c6_get_run_number ⟨none, some ["x"]⟩).2.2.2.2 ["x"] "t" none 1

/-! ## Auto-naming from the working directory
(`derive_session_name_from_cwd`, `apply_auto_name_on_session_start`)

`log-command.py:269-420`.  The working directory is modelled by its
`pathlib` component list (`path.parts`, e.g. `["/", "home", "u", "proj"]`);
an empty working directory is the empty list.  String operations
(`lower`, `rstrip`, the sanitising regexes, slicing, `rsplit`) are
translated character by character for ASCII. -/

/-- `GENERIC_FOLDER_NAMES` (`log-command.py:271-277`). -/
def GENERIC_FOLDER_NAMES : List String :=
  ["home", "user", "users", "code", "projects", "project", "work",
   "dev", "development", "src", "source", "app", "apps", "local",
   "current", "main", "master", "opt", "var", "tmp", "temp",
   "desktop", "documents", "downloads", "repos", "repository",
   "github", "gitlab", "bitbucket", "workspace", "workspaces"]

/-- `DRIVE_LETTERS` (`log-command.py:280`). -/
def DRIVE_LETTERS : List String := ["c", "d", "e", "f", "g", "h", "z"]

/-- Python's `str.lower()` (ASCII). -/
def pyLower (s : String) : String := String.mk (s.toList.map Char.toLower)

/-- Collapse runs of hyphens to one (`re.sub(r'-+', '-', ...)`). -/
def collapseHyphens : List Char → List Char
  | [] => []
  | c :: t =>
    let r := collapseHyphens t
    if c = '-' then
      match r with
      | '-' :: _ => r
      | _ => '-' :: r
    else c :: r

/-- Python's `str.strip('-')`. -/
def stripHyphens (cs : List Char) : List Char :=
  ((cs.dropWhile (fun c => c = '-')).reverse.dropWhile
    (fun c => c = '-')).reverse

/-- `_sanitize_folder_name` (`log-command.py:283-289`): lowercase, replace
every character outside `[a-zA-Z0-9_-]` by a hyphen, collapse hyphen runs,
strip outer hyphens. -/
def sanitize_folder_name (name : String) : String :=
  let replaced := (name.toList.map Char.toLower).map
    (fun c => if c.isAlphanum ∨ c = '_' ∨ c = '-' then c else '-')
  String.mk (stripHyphens (collapseHyphens replaced))

/-- Python's `part.rstrip(':\\\\/')` of `log-command.py:328`. -/
def rstripDriveChars (s : String) : String :=
  String.mk ((s.toList.reverse.dropWhile
    (fun c => c = ':' ∨ c = '\\' ∨ c = '/')).reverse)

/-- The last `n` elements of a list (`l[-n:]`). -/
def lastN (n : Nat) (l : List α) : List α := l.drop (l.length - n)

/-- The part-collection loop of `log-command.py:324-332` over the last four
path components: `(sanitized, raw.lower(), is_drive)` triples, skipping
components whose sanitised form is empty. -/
def mkParts (allParts : List String) : List (String × String × Bool) :=
  (lastN 4 allParts).filterMap
    (fun part =>
      let raw := rstripDriveChars part
      let sanitized := sanitize_folder_name raw
      if sanitized ≠ "" then
        some (sanitized, pyLower raw, decide (sanitized ∈ DRIVE_LETTERS))
      else none)

/-- The `start_idx` search of `log-command.py:348-353`: indices from
`len - 2` down to `0`, first whose raw lowercased name is non-generic and
not a drive; `0` when none qualifies. -/
def findStartPred (ps : List (String × String × Bool)) (i : Nat) : Bool :=
  match ps.get? i with
  | some (_, r, d) => ¬ (r ∈ GENERIC_FOLDER_NAMES) ∧ d = false
  | none => false

def findStart (ps : List (String × String × Bool)) : Nat :=
  match (List.range (ps.length - 1)).reverse.find? (findStartPred ps) with
  | some i => i
  | none => 0

/-- Python string slicing `s[:n]` (by characters). -/
def pyTake (n : Nat) (s : String) : String := String.mk (s.toList.take n)

/-- Largest index at which `pat` starts inside `hay`. -/
def lastSubIdx (hay pat : List Char) : Option Nat :=
  ((List.range (hay.length + 1)).filter
    (fun i => pat.isPrefixOf (hay.drop i))).getLast?

/-- Python's `s.rsplit(sep, 1)[0]`: everything before the last occurrence
of `sep`, or `s` itself when `sep` does not occur. -/
def pyRsplitOnceHead (s sep : String) : String :=
  match lastSubIdx s.toList sep.toList with
  | some i => String.mk (s.toList.take i)
  | none => s

/-- `derive_session_name_from_cwd` (`log-command.py:292-366`) over the
path's component list. -/
def derive_session_name_from_cwd (allParts : List String) : Option String :=
  let parts := mkParts allParts
  match parts.getLast? with
  | none => none
  | some (cn, cr, cd) =>
    if ¬ (cr ∈ GENERIC_FOLDER_NAMES) ∧ cd = false ∧ 3 ≤ cn.length then
      some (pyTake 50 cn)
    else
      let pathParts := (parts.drop (findStart parts)).filterMap
        (fun p => if 1 ≤ p.1.length then some p.1 else none)
      if pathParts ≠ [] then
        let pathName := String.intercalate "--" pathParts
        if 50 < pathName.length then
          some (pyRsplitOnceHead (pyTake 50 pathName) "--")
        else some pathName
      else none

/-- `apply_auto_name_on_session_start` (`log-command.py:369-420`): only on
`SessionStart`; resolve the current name first (whose write-through may
refresh the cache); if unnamed, derive from the working directory and
persist the candidate in the name cache only.  Returns the applied name and
the new resolver world. -/
def apply_auto_name_on_session_start (env : NameEnv) (sid tp : String)
    (cwdParts : List String) (hookEvent : String) :
    Option String × NameEnv :=
  if hookEvent ≠ "SessionStart" then (none, env)
  else
    let r := get_session_name env sid tp
    let env' : NameEnv := ⟨env.transcript, env.sessionsIndex, r.2⟩
    if pyTruthy r.1 then (none, env')
    else
      match derive_session_name_from_cwd cwdParts with
      | none => (none, env')
      | some nm =>
        if nm = "" then (none, env')
        else (some nm, ⟨env'.transcript, env'.sessionsIndex, some nm⟩)

/-- The C9 claim's naming rule taken at its word (for comparison with the
code): the *sanitized* leaf alone when it is at least 3 characters and not
in the denylist; otherwise join from the nearest ancestor whose *sanitized*
name is non-generic; truncate at a separator boundary.  Undefined (none)
when no non-generic ancestor exists, which the claim does not cover. -/
def derive_claim_c9 (allParts : List String) : Option String :=
  let parts := mkParts allParts
  match parts.getLast? with
  | none => none
  | some (cn, _, _) =>
    if 3 ≤ cn.length ∧ ¬ (cn ∈ GENERIC_FOLDER_NAMES) then
      some (pyTake 50 cn)
    else
      match (List.range (parts.length - 1)).reverse.find?
          (fun i =>
            match parts.get? i with
            | some (s, _, _) => ¬ (s ∈ GENERIC_FOLDER_NAMES)
            | none => false) with
      | some i =>
        let pathName :=
          String.intercalate "--" ((parts.drop i).map (fun p => p.1))
        if 50 < pathName.length then
          some (pyRsplitOnceHead (pyTake 50 pathName) "--")
        else some pathName
      | none => none

/-- C9 counterexample to the claim as stated: for the working directory
`/x/myproj/Source!` the sanitized leaf is `source`, which IS in the
generic-name denylist, so the claim prescribes the walk-up name
`myproj--source`; the code tests the denylist against the raw lowercased
segment `source!` instead and returns the generic leaf `source`. -/
theorem c9_counterexample :
    derive_session_name_from_cwd ["/", "x", "myproj", "Source!"] =
      some "source" ∧
    ("source" ∈ GENERIC_FOLDER_NAMES) ∧
    derive_claim_c9 ["/", "x", "myproj", "Source!"] = some "myproj--source" ∧
    derive_session_name_from_cwd ["/", "x", "myproj", "Source!"] ≠
      derive_claim_c9 ["/", "x", "myproj", "Source!"] := by
  refine ⟨by decide, by decide, by decide, by decide⟩

theorem mkParts_fst_ne_empty {allParts : List String} {p : String × String × Bool}
    (h : p ∈ mkParts allParts) : p.1 ≠ "" := by
  rw [mkParts, List.mem_filterMap] at h
  obtain ⟨a, _, ha⟩ := h
  simp only at ha
  by_cases hs : sanitize_folder_name (rstripDriveChars a) = ""
  · rw [hs] at ha
    simp at ha
  · rw [if_pos hs] at ha
    cases ha
    exact hs

theorem filterMap_len_pos {ps : List (String × String × Bool)}
    (h : ∀ p ∈ ps, p.1 ≠ "") :
    ps.filterMap (fun p => if 1 ≤ p.1.length then some p.1 else none) =
      ps.map (fun p => p.1) := by
  induction ps with
  | nil => rfl
  | cons q t ih =>
    rw [List.filterMap_cons, List.map_cons]
    have hq : q.1 ≠ "" := h q (List.mem_cons_self q t)
    have hlen : 1 ≤ q.1.length := by
      by_contra hcon
      push_neg at hcon
      have h0 : q.1.length = 0 := by omega
      exact hq (String.ext (List.eq_nil_of_length_eq_zero h0))
    rw [if_pos hlen, ih (fun p hp => h p (List.mem_cons_of_mem q hp))]

theorem findStart_lt {ps : List (String × String × Bool)} (h : ps ≠ []) :
    findStart ps < ps.length := by
  have hlen : 0 < ps.length := List.length_pos.mpr h
  rw [findStart]
  cases hf : (List.range (ps.length - 1)).reverse.find? (findStartPred ps) with
  | none => exact hlen
  | some i =>
    have hi : i ∈ (List.range (ps.length - 1)).reverse :=
      List.mem_of_find?_eq_some hf
    rw [List.mem_reverse, List.mem_range] at hi
    show i < ps.length
    omega

theorem pyTake_length_le (n : Nat) (s : String) : (pyTake n s).length ≤ n := by
  have h1 : (pyTake n s).length = (s.toList.take n).length := rfl
  rw [h1, List.length_take]
  exact Nat.min_le_left _ _

theorem pyRsplitOnceHead_length_le (s sep : String) :
    (pyRsplitOnceHead s sep).length ≤ s.length := by
  rw [pyRsplitOnceHead]
  cases h : lastSubIdx s.toList sep.toList with
  | none => exact Nat.le_refl _
  | some i =>
    have h1 : (String.mk (s.toList.take i)).length = (s.toList.take i).length :=
      rfl
    have h2 : s.length = s.toList.length := rfl
    rw [h1, h2, List.length_take]
    exact Nat.min_le_right _ _

/-- C9 (amended): for every working-directory path (as its component list),
the auto-naming candidate is the sanitized leaf segment alone (cut at 50
characters) when the sanitized form is at least 3 characters and the raw
lowercased leaf is not in the fixed generic-name denylist (and the leaf is
not a drive letter); otherwise the candidate joins the segments from the
nearest non-generic, non-drive ancestor (by raw lowercased name, within the
last four segments; the window start when none qualifies) through the leaf
with the `--` separator, and a result longer than 50 characters is cut to
50 and then truncated at the last `--` boundary within those 50 characters
when one exists; every candidate is at most 50 characters; no candidate
exists only when no segment survives sanitising; and on session start the
candidate is persisted only as a fallback-cache entry — the transcript and
sessions index are never written. -/
theorem c9_auto_naming_amended (allParts : List String) (env : NameEnv)
    (sid tp : String) (cwdParts : List String) (hookEvent : String) :
    (mkParts allParts = [] → derive_session_name_from_cwd allParts = none) ∧
    (∀ cn cr cd, (mkParts allParts).getLast? = some (cn, cr, cd) →
      ¬ (cr ∈ GENERIC_FOLDER_NAMES) → cd = false → 3 ≤ cn.length →
      derive_session_name_from_cwd allParts = some (pyTake 50 cn)) ∧
    (∀ cn cr cd, (mkParts allParts).getLast? = some (cn, cr, cd) →
      (cr ∈ GENERIC_FOLDER_NAMES ∨ cd = true ∨ cn.length < 3) →
      derive_session_name_from_cwd allParts =
        some (
          let pn := String.intercalate "--"
            (((mkParts allParts).drop (findStart (mkParts allParts))).map
              (fun p => p.1))
          if 50 < pn.length then pyRsplitOnceHead (pyTake 50 pn) "--"
          else pn)) ∧
    (∀ r, derive_session_name_from_cwd allParts = some r → r.length ≤ 50) ∧
    ((apply_auto_name_on_session_start env sid tp cwdParts
        hookEvent).2.transcript = env.transcript ∧
     (apply_auto_name_on_session_start env sid tp cwdParts
        hookEvent).2.sessionsIndex = env.sessionsIndex) ∧
    (∀ nm, hookEvent = "SessionStart" →
      pyTruthy (get_session_name env sid tp).1 = false →
      derive_session_name_from_cwd cwdParts = some nm → nm ≠ "" →
      apply_auto_name_on_session_start env sid tp cwdParts hookEvent =
        (some nm, ⟨env.transcript, env.sessionsIndex, some nm⟩)) := by
  have hjoin : ∀ cn cr cd, (mkParts allParts).getLast? = some (cn, cr, cd) →
      (cr ∈ GENERIC_FOLDER_NAMES ∨ cd = true ∨ cn.length < 3) →
      derive_session_name_from_cwd allParts =
        some (
          let pn := String.intercalate "--"
            (((mkParts allParts).drop (findStart (mkParts allParts))).map
              (fun p => p.1))
          if 50 < pn.length then pyRsplitOnceHead (pyTake 50 pn) "--"
          else pn) := by
    intro cn cr cd hlast hneg
    have hne : mkParts allParts ≠ [] := by
      intro he
      rw [he] at hlast
      cases hlast
    have hcond : ¬ (¬ (cr ∈ GENERIC_FOLDER_NAMES) ∧ cd = false ∧
        3 ≤ cn.length) := by
      rcases hneg with h | h | h
      · exact fun hc => hc.1 h
      · exact fun hc => by rw [h] at hc; cases hc.2.1
      · exact fun hc => by omega
    have hmap : ((mkParts allParts).drop
          (findStart (mkParts allParts))).filterMap
        (fun p => if 1 ≤ p.1.length then some p.1 else none) =
        ((mkParts allParts).drop (findStart (mkParts allParts))).map
          (fun p => p.1) :=
      filterMap_len_pos
        (fun p hp => mkParts_fst_ne_empty (List.mem_of_mem_drop hp))
    have hdropne : (mkParts allParts).drop
        (findStart (mkParts allParts)) ≠ [] := by
      intro he
      rw [List.drop_eq_nil_iff] at he
      exact absurd he (by
        have := findStart_lt hne
        omega)
    rw [derive_session_name_from_cwd, hlast]
    simp only [hcond, if_false]
    rw [hmap]
    have hmapne : ((mkParts allParts).drop
        (findStart (mkParts allParts))).map (fun p => p.1) ≠ [] := by
      rw [ne_eq, List.map_eq_nil_iff]
      exact hdropne
    simp only [hmapne, ne_eq, not_false_eq_true, if_true]
    by_cases h50 : 50 < (String.intercalate "--"
        (((mkParts allParts).drop (findStart (mkParts allParts))).map
          (fun p => p.1))).length
    · rw [if_pos h50, if_pos h50]
    · rw [if_neg h50, if_neg h50]
  refine ⟨?_, ?_, hjoin, ?_, ?_, ?_⟩
  · intro he
    rw [derive_session_name_from_cwd, he]
    rfl
  · intro cn cr cd hlast h1 h2 h3
    rw [derive_session_name_from_cwd, hlast]
    simp only [h1, h2, h3, not_false_eq_true, and_self, if_true]
  · intro r hr
    cases hlast : (mkParts allParts).getLast? with
    | none =>
      rw [derive_session_name_from_cwd, hlast] at hr
      cases hr
    | some pq =>
      obtain ⟨cn, cr, cd⟩ := pq
      by_cases hcond : ¬ (cr ∈ GENERIC_FOLDER_NAMES) ∧ cd = false ∧
          3 ≤ cn.length
      · have := hcond
        obtain ⟨ha, hb, hc⟩ := this
        rw [derive_session_name_from_cwd, hlast] at hr
        simp only [ha, hb, hc, not_false_eq_true, and_self, if_true] at hr
        cases hr
        exact pyTake_length_le 50 cn
      · have hneg : cr ∈ GENERIC_FOLDER_NAMES ∨ cd = true ∨ cn.length < 3 := by
          by_contra hcon
          push_neg at hcon
          exact hcond ⟨hcon.1, by
            cases cd with
            | false => rfl
            | true => exact absurd rfl hcon.2.1, by
            have := hcon.2.2
            omega⟩
        rw [hjoin cn cr cd hlast hneg] at hr
        cases hr
        simp only
        by_cases h50 : 50 < (String.intercalate "--"
            (((mkParts allParts).drop (findStart (mkParts allParts))).map
              (fun p => p.1))).length
        · rw [if_pos h50]
          exact Nat.le_trans (pyRsplitOnceHead_length_le _ _)
            (pyTake_length_le _ _)
        · rw [if_neg h50]
          omega
  · rw [apply_auto_name_on_session_start]
    by_cases he : hookEvent ≠ "SessionStart"
    · rw [if_pos he]
      exact ⟨rfl, rfl⟩
    · rw [if_neg he]
      by_cases ht : pyTruthy (get_session_name env sid tp).1 = true
      · rw [if_pos ht]
        exact ⟨rfl, rfl⟩
      · rw [if_neg ht]
        cases hd : derive_session_name_from_cwd cwdParts with
        | none => simp [hd]
        | some nm =>
          by_cases hnm : nm = ""
          · simp [hd, hnm]
          · simp [hd, hnm]
  · intro nm he ht hd hnm
    rw [apply_auto_name_on_session_start]
    rw [if_neg (show ¬ (hookEvent ≠ "SessionStart") by
      rw [he]; exact fun hc => hc rfl)]
    rw [if_neg (show ¬ (pyTruthy (get_session_name env sid tp).1 = true) by
      rw [ht]; exact Bool.false_ne_true)]
    simp only [hd]
    rw [if_neg hnm]

/-- Witness for C9 (amended) at concrete inputs: a distinctive leaf is used
alone; a generic leaf triggers the walk-up join; every candidate is within
50 characters; on session start an unnamed session gets the candidate
persisted in the cache only. -/
theorem c9_auto_naming_witness :
    derive_session_name_from_cwd ["/", "home", "u", "my-project"] =
      some (pyTake 50 "my-project") ∧
    derive_session_name_from_cwd ["/", "home", "user", "src"] =
      some "home--user--src" ∧
    ("home--user--src" : String).length ≤ 50 ∧
    apply_auto_name_on_session_start ⟨none, none, none⟩ "s" "" ["proj"]
      "SessionStart" = (some "proj", ⟨none, none, some "proj"⟩) := by
  refine ⟨?_, ?_, ?_, ?_⟩
  · exact (c9_auto_naming_amended ["/", "home", "u", "my-project"]
      ⟨none, none, none⟩ "s" "" [] "x").2.1 "my-project" "my-project" false
      (by decide) (by decide) rfl (by decide)
  · have h := (c9_auto_naming_amended ["/", "home", "user", "src"]
      ⟨none, none, none⟩ "s" "" [] "x").2.2.1 "src" "src" false
      (by decide) (Or.inl (by decide))
    rw [h]
    decide
  · exact (c9_auto_naming_amended ["/", "home", "user", "src"]
      ⟨none, none, none⟩ "s" "" [] "x").2.2.2.1 "home--user--src" (by decide)
  · exact (c9_auto_naming_amended [] ⟨none, none, none⟩ "s" "" ["proj"]
      "SessionStart").2.2.2.2.2 "proj" rfl (by decide) (by decide) (by decide)

/-! ## File reconciliation (`reconcile_single_category` and friends)

`log-command.py:1277-1519`.  Log filenames follow the fixed grammar of
`build_filename` (`log-command.py:1325-1350`); they are modelled
structurally, one constructor argument per grammatical component, with the
optional `.log` extension as a flag (legacy files lack it) and non-log
files as `other`.  The regex helpers `find_session_files`,
`find_max_sequence` and `has_sequence_number` become the corresponding
structural predicates: `find_session_files`' pattern keys on prefix, file
type and session id; `find_max_sequence`'s on every component; the
three-digit `--NNN--` group means sequence numbers of 1000 and above never
match (`%03d` renders them with four digits).  A directory entry carries
its name, its `st_mtime` and its content; the list order is the `iterdir`
order, and a rename keeps the entry in place. -/

/-- A structured log filename: prefix, file type, shell, optional
(name, optional sequence), session id, username, `.log` extension flag;
or any other (non-log) filename. -/
inductive FName
  | logf (pfx ftyp shell : String) (nameSeq : Option (String × Option Nat))
      (guid user : String) (ext : Bool)
  | other (s : String)
deriving DecidableEq

/-- A directory entry: structured name, modification time, content. -/
structure Entry where
  fname : FName
  mtime : Nat
  content : String
deriving DecidableEq

instance : Inhabited Entry := ⟨⟨FName.other "", 0, ""⟩⟩

/-- A session directory's files, in iteration order. -/
abbrev Dir := List Entry

/-- `build_filename` (`log-command.py:1325-1350`). -/
def build_filename (pfx ftyp shell : String) (sessionName : Option String)
    (guid user : String) (seq : Option Nat) : FName :=
  match sessionName with
  | some nm => FName.logf pfx ftyp shell (some (nm, seq)) guid user true
  | none => FName.logf pfx ftyp shell none guid user true

/-- The filename pattern of `find_session_files` (`log-command.py:1288-1290`)
on the structured grammar: same prefix, file type and session id (shell,
name, sequence, user and extension are free). -/
def matchesCategory (f : FName) (pfx ftyp guid : String) : Bool :=
  match f with
  | FName.logf p t _ _ g _ _ => p = pfx ∧ t = ftyp ∧ g = guid
  | FName.other _ => false

/-- `find_session_files` (`log-command.py:1277-1300`). -/
def find_session_files (dir : Dir) (pfx ftyp guid : String) : List Entry :=
  dir.filter (fun e => matchesCategory e.fname pfx ftyp guid)

/-- `has_sequence_number` (`log-command.py:1353-1356`): the `--NNN__` group
is exactly three digits. -/
def has_sequence_number (f : FName) : Bool :=
  match f with
  | FName.logf _ _ _ (some (_, some k)) _ _ _ => k < 1000
  | _ => false

/-- One step of `find_max_sequence`'s scan. -/
def maxSeqStep (pfx ftyp shell name guid user : String) (m : Int)
    (e : Entry) : Int :=
  match e.fname with
  | FName.logf p t sh (some (nm, some k)) g u _ =>
    if p = pfx ∧ t = ftyp ∧ sh = shell ∧ nm = name ∧ g = guid ∧
        u = user ∧ k < 1000 then
      max m (k : Int)
    else m
  | _ => m

/-- `find_max_sequence` (`log-command.py:1303-1322`): highest three-digit
sequence among files with exactly these components (either extension),
`-1` when none. -/
def find_max_sequence (dir : Dir) (pfx ftyp shell name guid user : String) :
    Int :=
  dir.foldl (maxSeqStep pfx ftyp shell name guid user) (-1)

/-- Rename in place: the entry named `src` takes the name `dst`, keeping
its position, mtime and content. -/
def renameMap (dir : Dir) (src dst : FName) : Dir :=
  dir.map (fun e => if e.fname = src then ⟨dst, e.mtime, e.content⟩ else e)

/-- `safe_rename` (`log-command.py:1369-1384`): no-op success when source
equals destination, failure when the destination exists, otherwise rename
in place. -/
def safe_rename (dir : Dir) (src dst : FName) : Dir × Bool :=
  if src = dst then (dir, true)
  else if dir.any (fun e => e.fname = dst) then (dir, false)
  else (renameMap dir src dst, true)

/-- The comparison key of `sorted(files, key=lambda f: f.stat().st_mtime)`
(`log-command.py:1453`); Python's sort is stable, as is `insertionSort`
with this reflexive total relation, so they agree. -/
def mtimeLE (a b : Entry) : Prop := a.mtime ≤ b.mtime

instance : DecidableRel mtimeLE := fun a b =>
  inferInstanceAs (Decidable (a.mtime ≤ b.mtime))

instance : IsTotal Entry mtimeLE := ⟨fun a b => Nat.le_total a.mtime b.mtime⟩

instance : IsTrans Entry mtimeLE :=
  ⟨fun _ _ _ hab hbc => Nat.le_trans hab hbc⟩

/-- The current-file step of `reconcile_single_category`
(`log-command.py:1463-1474`): rename the most recent file to the canonical
name, or give it a fresh sequence number when the canonical name is taken
by another file; returns the directory and the updated `max_seq`. -/
def renameCurrentStep (dir : Dir) (current : Entry) (target : FName)
    (pfx ftyp shell name guid user : String) (maxSeq : Int) : Dir × Int :=
  if current.fname ≠ target then
    if dir.any (fun e => e.fname = target) then
      ((safe_rename dir current.fname
        (build_filename pfx ftyp shell (some name) guid user
          (some (maxSeq + 1).toNat))).1, maxSeq + 1)
    else ((safe_rename dir current.fname target).1, maxSeq)
  else (dir, maxSeq)

/-- The older-files loop of `reconcile_single_category`
(`log-command.py:1476-1486`): files already carrying a sequence are
skipped; the rest are renamed to `next_seq`, which advances only on a
successful rename. -/
def seqAssignLoop (pfx ftyp shell name guid user : String) :
    Dir × Int → List Entry → Dir
  | st, [] => st.1
  | (d, next), o :: rest =>
    if has_sequence_number o.fname then
      seqAssignLoop pfx ftyp shell name guid user (d, next) rest
    else
      let dst := build_filename pfx ftyp shell (some name) guid user
        (some next.toNat)
      let r := safe_rename d o.fname dst
      seqAssignLoop pfx ftyp shell name guid user
        (r.1, if r.2 then next + 1 else next) rest

/-- `reconcile_single_category` (`log-command.py:1423-1488`). -/
def reconcile_single_category (dir : Dir) (guid name shell user pfx
    ftyp : String) : FName × Dir :=
  let files := find_session_files dir pfx ftyp guid
  let target := build_filename pfx ftyp shell (some name) guid user none
  match files with
  | [] => (target, dir)
  | [onlyFile] =>
    if onlyFile.fname = target then (target, dir)
    else (target, (safe_rename dir onlyFile.fname target).1)
  | _ :: _ :: _ =>
    let sorted := (find_session_files dir pfx ftyp guid).insertionSort mtimeLE
    let current := sorted.getLastD default
    let older := sorted.dropLast
    let maxSeq := find_max_sequence dir pfx ftyp shell name guid user
    let st1 := renameCurrentStep dir current target pfx ftyp shell name
      guid user maxSeq
    (target, seqAssignLoop pfx ftyp shell name guid user
      (st1.1, st1.2 + 1) older)

/-- `reconcile_session_files` (`log-command.py:1491-1519`): nothing without
a truthy name; otherwise reconcile the six (prefix, file type) categories
in order, threading the directory state, and collect the write targets. -/
def reconcile_session_files (dir : Dir) (guid : String)
    (sessionName : Option String) (shell user : String) :
    List (String × FName) × Dir :=
  match sessionName with
  | none => ([], dir)
  | some nm =>
    if nm = "" then ([], dir)
    else
      [("", "sesslog"), ("", "shell"), ("", "tasks"),
       ("Python_", "sesslog"), ("Python_", "shell"),
       ("Python_", "tasks")].foldl
        (fun st pt =>
          let r := reconcile_single_category st.2 guid nm shell user
            pt.1 pt.2
          (st.1 ++ [(pt.1 ++ pt.2, r.1)], r.2))
        ([], dir)

/-! ### Rename algebra -/

/-- The observation that renames never touch: position, mtime, content. -/
def dirShape (dir : Dir) : List (Nat × String) :=
  dir.map (fun e => (e.mtime, e.content))

theorem renameMap_shape (dir : Dir) (src dst : FName) :
    dirShape (renameMap dir src dst) = dirShape dir := by
  rw [dirShape, renameMap, dirShape, List.map_map]
  refine List.map_congr_left ?_
  intro e _
  by_cases h : e.fname = src <;> simp [h]

theorem safe_rename_shape (dir : Dir) (src dst : FName) :
    dirShape (safe_rename dir src dst).1 = dirShape dir := by
  rw [safe_rename]
  by_cases h1 : src = dst
  · rw [if_pos h1]
  · rw [if_neg h1]
    by_cases h2 : dir.any (fun e => e.fname = dst)
    · rw [if_pos h2]
    · rw [if_neg h2]
      exact renameMap_shape dir src dst

theorem renameMap_fnames (dir : Dir) (src dst : FName) :
    (renameMap dir src dst).map (fun e => e.fname) =
      (dir.map (fun e => e.fname)).map (fun x => if x = src then dst else x) := by
  rw [renameMap, List.map_map, List.map_map]
  refine List.map_congr_left ?_
  intro e _
  by_cases h : e.fname = src <;> simp [h]

theorem nodup_rename_list {l : List FName} {src dst : FName}
    (h : l.Nodup) (hdst : dst ∉ l) :
    (l.map (fun x => if x = src then dst else x)).Nodup := by
  refine List.Nodup.map_on ?_ h
  intro x hx y hy hxy
  by_cases hxs : x = src <;> by_cases hys : y = src
  · rw [hxs, hys]
  · rw [if_pos hxs, if_neg hys] at hxy
    exact absurd (hxy ▸ hy) hdst
  · rw [if_neg hxs, if_pos hys] at hxy
    exact absurd (hxy.symm ▸ hx) hdst
  · rw [if_neg hxs, if_neg hys] at hxy
    exact hxy

theorem renameMap_nodup {dir : Dir} {src dst : FName}
    (h : (dir.map (fun e => e.fname)).Nodup)
    (hdst : ¬ dir.any (fun e => e.fname = dst)) :
    ((renameMap dir src dst).map (fun e => e.fname)).Nodup := by
  rw [renameMap_fnames]
  refine nodup_rename_list h ?_
  intro hmem
  rw [List.mem_map] at hmem
  obtain ⟨e, he, hne⟩ := hmem
  exact hdst (List.any_eq_true.mpr ⟨e, he, by rw [hne]; exact decide_eq_true rfl⟩)

theorem safe_rename_nodup {dir : Dir} {src dst : FName}
    (h : (dir.map (fun e => e.fname)).Nodup) :
    (((safe_rename dir src dst).1).map (fun e => e.fname)).Nodup := by
  rw [safe_rename]
  by_cases h1 : src = dst
  · rw [if_pos h1]; exact h
  · rw [if_neg h1]
    by_cases h2 : dir.any (fun e => e.fname = dst)
    · rw [if_pos h2]; exact h
    · rw [if_neg h2]
      exact renameMap_nodup h h2

theorem renameMap_mem_of_ne {dir : Dir} {e : Entry} (src dst : FName)
    (he : e ∈ dir) (hne : e.fname ≠ src) : e ∈ renameMap dir src dst := by
  rw [renameMap, List.mem_map]
  exact ⟨e, he, by rw [if_neg hne]⟩

theorem renameMap_mem_renamed {dir : Dir} {e : Entry} (src dst : FName)
    (he : e ∈ dir) (hse : e.fname = src) :
    (⟨dst, e.mtime, e.content⟩ : Entry) ∈ renameMap dir src dst := by
  rw [renameMap, List.mem_map]
  exact ⟨e, he, by rw [if_pos hse]⟩

/-! ### Sorting lemmas -/

theorem sorted_last_max {l : List Entry} (hne : l ≠ []) :
    ∀ x ∈ l, x.mtime ≤ ((l.insertionSort mtimeLE).getLastD default).mtime := by
  intro x hx
  have hperm := List.perm_insertionSort mtimeLE l
  have hsne : l.insertionSort mtimeLE ≠ [] := by
    intro he
    exact hne ((he ▸ hperm).symm.eq_nil)
  have hxs : x ∈ l.insertionSort mtimeLE := hperm.mem_iff.mpr hx
  have hsorted := List.sorted_insertionSort mtimeLE l
  set s := l.insertionSort mtimeLE with hs
  have hlast : s.getLastD default = s.getLast hsne := by
    rw [List.getLastD_eq_getLast?, List.getLast?_eq_getLast s hsne]
    rfl
  rw [hlast, List.getLast_eq_get]
  obtain ⟨i, hi⟩ := List.mem_iff_get.mp hxs
  by_cases hilt : (i : Nat) < s.length - 1
  · have := hsorted.rel_get_of_lt
      (a := i) (b := ⟨s.length - 1, by omega⟩) (by
        rw [Fin.lt_def]
        exact hilt)
    rw [hi] at this
    exact this
  · have hieq : (i : Nat) = s.length - 1 := by
      have := i.isLt
      omega
    have : s.get i = s.get ⟨s.length - 1, by
        have := i.isLt
        omega⟩ := by
      congr 1
      exact Fin.ext hieq
    rw [hi] at this
    rw [← this]

theorem orderedInsert_map (g : Entry → Entry)
    (hg : ∀ e, (g e).mtime = e.mtime) (a : Entry) (l : List Entry) :
    List.orderedInsert mtimeLE (g a) (l.map g) =
      (List.orderedInsert mtimeLE a l).map g := by
  induction l with
  | nil => rfl
  | cons b t ih =>
    rw [List.map_cons, List.orderedInsert, List.orderedInsert]
    by_cases h : mtimeLE a b
    · rw [if_pos (show mtimeLE (g a) (g b) by
        rw [mtimeLE, hg, hg]; exact h), if_pos h, List.map_cons,
        List.map_cons]
    · rw [if_neg (show ¬ mtimeLE (g a) (g b) by
        rw [mtimeLE, hg, hg]; exact h), if_neg h, List.map_cons, ih]

theorem insertionSort_map (g : Entry → Entry)
    (hg : ∀ e, (g e).mtime = e.mtime) (l : List Entry) :
    (l.map g).insertionSort mtimeLE = (l.insertionSort mtimeLE).map g := by
  induction l with
  | nil => rfl
  | cons a t ih =>
    rw [List.map_cons, List.insertionSort, List.insertionSort, ih,
      orderedInsert_map g hg]

/-! ### The older-files loop: basic preservation -/

section LoopLemmas

variable (pfx ftyp shell name guid user : String)

theorem seqAssignLoop_shape (older : List Entry) :
    ∀ d n, dirShape (seqAssignLoop pfx ftyp shell name guid user (d, n)
      older) = dirShape d := by
  induction older with
  | nil => intro d n; rfl
  | cons o rest ih =>
    intro d n
    rw [seqAssignLoop]
    by_cases h : has_sequence_number o.fname
    · rw [if_pos h, ih]
    · rw [if_neg h]
      simp only
      rw [ih, safe_rename_shape]

theorem seqAssignLoop_nodup (older : List Entry) :
    ∀ d n, ((d : Dir).map (fun e => e.fname)).Nodup →
    ((seqAssignLoop pfx ftyp shell name guid user (d, n) older).map
      (fun e => e.fname)).Nodup := by
  induction older with
  | nil => intro d n h; exact h
  | cons o rest ih =>
    intro d n h
    rw [seqAssignLoop]
    by_cases hs : has_sequence_number o.fname
    · rw [if_pos hs]
      exact ih d n h
    · rw [if_neg hs]
      simp only
      exact ih _ _ (safe_rename_nodup h)

theorem seqAssignLoop_mem (older : List Entry) :
    ∀ d n (e : Entry), e ∈ d →
    (∀ o ∈ older, ¬ has_sequence_number o.fname = true → o.fname ≠ e.fname) →
    e ∈ seqAssignLoop pfx ftyp shell name guid user (d, n) older := by
  induction older with
  | nil => intro d n e he _; exact he
  | cons o rest ih =>
    intro d n e he hsrc
    rw [seqAssignLoop]
    by_cases hs : has_sequence_number o.fname
    · rw [if_pos hs]
      exact ih d n e he
        (fun o' ho' => hsrc o' (List.mem_cons_of_mem o ho'))
    · rw [if_neg hs]
      simp only
      refine ih _ _ e ?_
        (fun o' ho' => hsrc o' (List.mem_cons_of_mem o ho'))
      rw [safe_rename]
      by_cases h1 : o.fname = build_filename pfx ftyp shell (some name)
        guid user (some n.toNat)
      · rw [if_pos h1]
        exact he
      · rw [if_neg h1]
        by_cases h2 : List.any d (fun e => e.fname = build_filename pfx
          ftyp shell (some name) guid user (some n.toNat))
        · rw [if_pos h2]
          exact he
        · rw [if_neg h2]
          refine renameMap_mem_of_ne _ _ he ?_
          intro hc
          exact hsrc o (List.mem_cons_self o rest) hs hc.symm

end LoopLemmas

/-! ### The older-files loop: success under the sequence invariant -/

section LoopInv

variable (pfx ftyp shell name guid user : String)

/-- Invariant of the sequencing loop: every file whose name is a sequenced
form of exactly this category (either extension) carries a number below the
next counter value, so the next sequence name is unused. -/
def SeqInv (d : Dir) (n : Int) : Prop :=
  ∀ e ∈ d, ∀ k ext, e.fname = FName.logf pfx ftyp shell
    (some (name, some k)) guid user ext → (k : Int) < n

/-- The older-files loop under the assumption that every rename succeeds:
sequence numbers are handed out consecutively, in sorted order, skipping
files that already carry one. -/
def seqLoopSpec : Dir → Int → List Entry → Dir
  | d, _, [] => d
  | d, next, o :: rest =>
    if has_sequence_number o.fname then
      seqLoopSpec d next rest
    else
      seqLoopSpec
        (renameMap d o.fname (build_filename pfx ftyp shell (some name)
          guid user (some next.toNat)))
        (next + 1) rest

theorem renameMap_id_of_absent {d : Dir} {src dst : FName}
    (h : ¬ (d.any (fun e => e.fname = src)) = true) :
    renameMap d src dst = d := by
  rw [renameMap]
  have hcon : ∀ e ∈ d,
      (if e.fname = src then (⟨dst, e.mtime, e.content⟩ : Entry) else e) =
        id e := by
    intro e he
    have hne : ¬ e.fname = src := by
      intro hc
      exact h (List.any_eq_true.mpr ⟨e, he, decide_eq_true hc⟩)
    rw [if_neg hne]
    rfl
  rw [List.map_congr_left hcon, List.map_id]

theorem seqInv_no_dst {d : Dir} {n : Int} (h0 : 0 ≤ n)
    (hinv : SeqInv pfx ftyp shell name guid user d n) :
    ¬ (d.any (fun e => e.fname = build_filename pfx ftyp shell (some name)
      guid user (some n.toNat))) = true := by
  intro hc
  rw [List.any_eq_true] at hc
  obtain ⟨e, he, hd⟩ := hc
  rw [decide_eq_true_eq] at hd
  have := hinv e he n.toNat true hd
  rw [Int.toNat_of_nonneg h0] at this
  omega

theorem seqInv_renameMap {d : Dir} {n : Int} (h0 : 0 ≤ n)
    (hinv : SeqInv pfx ftyp shell name guid user d n) (src : FName) :
    SeqInv pfx ftyp shell name guid user
      (renameMap d src (build_filename pfx ftyp shell (some name) guid user
        (some n.toNat))) (n + 1) := by
  intro e' he' k ext hpat
  rw [renameMap, List.mem_map] at he'
  obtain ⟨e, he, hf⟩ := he'
  by_cases hs : e.fname = src
  · rw [if_pos hs] at hf
    rw [← hf] at hpat
    simp only at hpat
    rw [build_filename] at hpat
    cases hpat
    rw [Int.toNat_of_nonneg h0]
    omega
  · rw [if_neg hs] at hf
    rw [← hf] at hpat
    have := hinv e he k ext hpat
    omega

theorem seqAssignLoop_eq_spec (older : List Entry) :
    ∀ d n, 0 ≤ n → SeqInv pfx ftyp shell name guid user d n →
    seqAssignLoop pfx ftyp shell name guid user (d, n) older =
      seqLoopSpec pfx ftyp shell name guid user d n older := by
  induction older with
  | nil => intro d n _ _; rfl
  | cons o rest ih =>
    intro d n h0 hinv
    rw [seqAssignLoop, seqLoopSpec]
    by_cases hs : has_sequence_number o.fname
    · rw [if_pos hs, if_pos hs]
      exact ih d n h0 hinv
    · rw [if_neg hs, if_neg hs]
      simp only
      have hnodst := seqInv_no_dst pfx ftyp shell name guid user h0 hinv
      rw [safe_rename]
      by_cases h1 : o.fname = build_filename pfx ftyp shell (some name)
        guid user (some n.toNat)
      · rw [if_pos h1]
        simp only
        have hmapid : renameMap d o.fname (build_filename pfx ftyp shell
            (some name) guid user (some n.toNat)) = d :=
          renameMap_id_of_absent (by rw [h1]; exact hnodst)
        rw [hmapid]
        refine ih d (n + 1) (by omega) ?_
        intro e he k ext hpat
        have := hinv e he k ext hpat
        omega
      · rw [if_neg h1, if_neg hnodst]
        simp only
        exact ih _ _ (by omega)
          (seqInv_renameMap pfx ftyp shell name guid user h0 hinv o.fname)

end LoopInv

section LoopSpecLemmas

variable (pfx ftyp shell name guid user : String)

theorem seqLoopSpec_mem (older : List Entry) :
    ∀ d n (e : Entry), e ∈ d →
    (∀ o ∈ older, ¬ has_sequence_number o.fname = true → o.fname ≠ e.fname) →
    e ∈ seqLoopSpec pfx ftyp shell name guid user d n older := by
  induction older with
  | nil => intro d n e he _; exact he
  | cons o rest ih =>
    intro d n e he hsrc
    rw [seqLoopSpec]
    by_cases hs : has_sequence_number o.fname
    · rw [if_pos hs]
      exact ih d n e he (fun o' ho' => hsrc o' (List.mem_cons_of_mem o ho'))
    · rw [if_neg hs]
      refine ih _ _ e ?_ (fun o' ho' => hsrc o' (List.mem_cons_of_mem o ho'))
      exact renameMap_mem_of_ne _ _ he
        (fun hc => hsrc o (List.mem_cons_self o rest) hs hc.symm)

theorem seqLoopSpec_assign (older : List Entry) :
    ∀ d n (e os : Entry), 0 ≤ n → e ∈ d → os ∈ older →
    e.fname = os.fname → ¬ has_sequence_number os.fname = true →
    (older.map (fun o => o.fname)).Nodup →
    (∀ o ∈ older, ¬ has_sequence_number o.fname = true →
      ∀ k, o.fname ≠ FName.logf pfx ftyp shell (some (name, some k))
        guid user true) →
    ∃ k : Nat, n ≤ (k : Int) ∧
      (⟨build_filename pfx ftyp shell (some name) guid user (some k),
        e.mtime, e.content⟩ : Entry) ∈
        seqLoopSpec pfx ftyp shell name guid user d n older := by
  induction older with
  | nil => intro d n e os _ _ hos; cases hos
  | cons o rest ih =>
    intro d n e os h0 he hos hef hosq hnod hshape
    rw [seqLoopSpec]
    rcases List.mem_cons.mp hos with heq | hrest
    · subst heq
      rw [if_neg hosq]
      refine ⟨n.toNat, by rw [Int.toNat_of_nonneg h0], ?_⟩
      refine seqLoopSpec_mem pfx ftyp shell name guid user rest _ _ _
        (renameMap_mem_renamed _ _ he hef) ?_
      intro o' ho' ho'q hc
      exact hshape o' (List.mem_cons_of_mem os ho') ho'q n.toNat hc
    · by_cases hsq : has_sequence_number o.fname
      · rw [if_pos hsq]
        obtain ⟨k, hk, hmem⟩ := ih d n e os h0 he hrest hef hosq
          (by rw [List.map_cons] at hnod; exact hnod.of_cons)
          (fun o' ho' => hshape o' (List.mem_cons_of_mem o ho'))
        exact ⟨k, hk, hmem⟩
      · rw [if_neg hsq]
        have hne : e.fname ≠ o.fname := by
          rw [hef]
          intro hc
          rw [List.map_cons] at hnod
          exact (List.nodup_cons.mp hnod).1
            (hc ▸ List.mem_map_of_mem (fun x => x.fname) hrest)
        obtain ⟨k, hk, hmem⟩ := ih _ (n + 1) e os (by omega)
          (renameMap_mem_of_ne _ _ he hne) hrest hef hosq
          (by rw [List.map_cons] at hnod; exact hnod.of_cons)
          (fun o' ho' => hshape o' (List.mem_cons_of_mem o ho'))
        exact ⟨k, by omega, hmem⟩

end LoopSpecLemmas

section MaxSeqLemmas

variable (pfx ftyp shell name guid user : String)

theorem maxSeqStep_ge (m : Int) (e : Entry) :
    m ≤ maxSeqStep pfx ftyp shell name guid user m e := by
  rw [maxSeqStep]
  cases hf : e.fname with
  | other s => exact le_refl m
  | logf p t sh ns g u x =>
    cases ns with
    | none => exact le_refl m
    | some pr =>
      obtain ⟨nm, sq⟩ := pr
      cases sq with
      | none => exact le_refl m
      | some k =>
        show m ≤ if p = pfx ∧ t = ftyp ∧ sh = shell ∧ nm = name ∧
            g = guid ∧ u = user ∧ k < 1000 then max m (k : Int) else m
        by_cases hc : p = pfx ∧ t = ftyp ∧ sh = shell ∧ nm = name ∧
            g = guid ∧ u = user ∧ k < 1000
        · rw [if_pos hc]
          exact le_max_left m k
        · rw [if_neg hc]

theorem foldl_maxSeqStep_ge (l : List Entry) :
    ∀ acc : Int, acc ≤ l.foldl (maxSeqStep pfx ftyp shell name guid user)
      acc := by
  induction l with
  | nil => intro acc; exact le_refl acc
  | cons e t ih =>
    intro acc
    rw [List.foldl_cons]
    exact le_trans (maxSeqStep_ge pfx ftyp shell name guid user acc e)
      (ih _)

theorem find_max_sequence_ge_neg_one (dir : Dir) :
    -1 ≤ find_max_sequence dir pfx ftyp shell name guid user :=
  foldl_maxSeqStep_ge pfx ftyp shell name guid user dir (-1)

theorem foldl_maxSeqStep_ge_elem (l : List Entry) :
    ∀ acc : Int, ∀ e ∈ l, ∀ (k : Nat) (ext : Bool),
    e.fname = FName.logf pfx ftyp shell (some (name, some k)) guid user
      ext → k < 1000 →
    (k : Int) ≤ l.foldl (maxSeqStep pfx ftyp shell name guid user) acc := by
  induction l with
  | nil => intro acc e he; cases he
  | cons o t ih =>
    intro acc e he k ext hpat hk
    rw [List.foldl_cons]
    rcases List.mem_cons.mp he with heq | ht
    · subst heq
      refine le_trans ?_ (foldl_maxSeqStep_ge pfx ftyp shell name guid
        user t _)
      have hstep : maxSeqStep pfx ftyp shell name guid user acc e =
          max acc (k : Int) := by
        rw [maxSeqStep, hpat]
        show (if pfx = pfx ∧ ftyp = ftyp ∧ shell = shell ∧ name = name ∧
          guid = guid ∧ user = user ∧ k < 1000 then max acc (k : Int)
          else acc) = max acc (k : Int)
        rw [if_pos ⟨rfl, rfl, rfl, rfl, rfl, rfl, hk⟩]
      rw [hstep]
      exact le_max_right acc k
    · exact ih _ e ht k ext hpat hk

theorem seqInv_base {dir : Dir}
    (hsq : ∀ e ∈ dir, ∀ (k : Nat) (ext : Bool),
      e.fname = FName.logf pfx ftyp shell (some (name, some k)) guid user
        ext → k < 1000) :
    SeqInv pfx ftyp shell name guid user dir
      (find_max_sequence dir pfx ftyp shell name guid user + 1) := by
  intro e he k ext hpat
  have hk := hsq e he k ext hpat
  have := foldl_maxSeqStep_ge_elem pfx ftyp shell name guid user dir (-1)
    e he k ext hpat hk
  rw [find_max_sequence]
  omega

end MaxSeqLemmas

theorem renameCurrentStep_shape (dir : Dir) (cur : Entry) (target : FName)
    (pfx ftyp shell name guid user : String) (maxSeq : Int) :
    dirShape (renameCurrentStep dir cur target pfx ftyp shell name guid
      user maxSeq).1 = dirShape dir := by
  rw [renameCurrentStep]
  by_cases h1 : cur.fname ≠ target
  · rw [if_pos h1]
    by_cases h2 : dir.any (fun e => e.fname = target)
    · rw [if_pos h2]
      exact safe_rename_shape _ _ _
    · rw [if_neg h2]
      exact safe_rename_shape _ _ _
  · rw [if_neg h1]

theorem renameCurrentStep_nodup {dir : Dir} (cur : Entry) (target : FName)
    (pfx ftyp shell name guid user : String) (maxSeq : Int)
    (hnd : (dir.map (fun e => e.fname)).Nodup) :
    ((renameCurrentStep dir cur target pfx ftyp shell name guid user
      maxSeq).1.map (fun e => e.fname)).Nodup := by
  rw [renameCurrentStep]
  by_cases h1 : cur.fname ≠ target
  · rw [if_pos h1]
    by_cases h2 : dir.any (fun e => e.fname = target)
    · rw [if_pos h2]
      exact safe_rename_nodup hnd
    · rw [if_neg h2]
      exact safe_rename_nodup hnd
  · rw [if_neg h1]
    exact hnd

theorem getLastD_mem {l : List Entry} (hne : l ≠ []) :
    l.getLastD default ∈ l := by
  have hlastd : l.getLastD default = l.getLast hne := by
    rw [List.getLastD_eq_getLast?, List.getLast?_eq_getLast l hne]
    rfl
  rw [hlastd]
  exact List.getLast_mem hne

theorem dropLast_fname_ne_last {l : List Entry} (hne : l ≠ [])
    (hnd : (l.map (fun e => e.fname)).Nodup) :
    ∀ x ∈ l.dropLast, x.fname ≠ (l.getLastD default).fname := by
  intro x hx
  have hlastd : l.getLastD default = l.getLast hne := by
    rw [List.getLastD_eq_getLast?, List.getLast?_eq_getLast l hne]
    rfl
  rw [hlastd]
  have hdecomp := List.dropLast_append_getLast hne
  rw [← hdecomp, List.map_append] at hnd
  obtain ⟨_, _, hdisj⟩ := List.nodup_append.mp hnd
  intro hc
  exact hdisj (List.mem_map_of_mem (fun e => e.fname) hx)
    (by rw [List.map_singleton, hc]; exact List.mem_singleton_self _)

/-- C4: when `reconcile_single_category` finds two or more files matching a
category for a session, it returns the canonical (unsequenced) target path;
the most recently modified file (ties broken by directory order, as in the
stable sort) is kept: it is renamed to the canonical name when that name is
free (or already its own), and otherwise it receives the fresh sequence
number `max+1`, a name no existing file carries; every older file already
carrying a `--NNN` suffix is left untouched; every older file lacking one
is renamed to a previously unused sequence number above every existing one,
consecutive numbers being handed out in ascending modification-time order
(the explicit `seqLoopSpec` unfolding); and no file is ever deleted or
overwritten: positions, mtimes and contents are preserved exactly and
distinct names stay distinct. -/
theorem c4_reconcile_single_category
    (dir : Dir) (guid name shell user pfx ftyp : String)
    (hnd : (dir.map (fun e => e.fname)).Nodup)
    (hsq : ∀ e ∈ dir, ∀ (k : Nat) (ext : Bool),
      e.fname = FName.logf pfx ftyp shell (some (name, some k)) guid user
        ext → k < 1000)
    (hlen : 2 ≤ (find_session_files dir pfx ftyp guid).length) :
    (reconcile_single_category dir guid name shell user pfx ftyp).1 =
      build_filename pfx ftyp shell (some name) guid user none ∧
    (∀ f ∈ find_session_files dir pfx ftyp guid, f.mtime ≤
      (((find_session_files dir pfx ftyp guid).insertionSort
        mtimeLE).getLastD default).mtime) ∧
    dirShape (reconcile_single_category dir guid name shell user
      pfx ftyp).2 = dirShape dir ∧
    ((reconcile_single_category dir guid name shell user pfx ftyp).2.map
      (fun e => e.fname)).Nodup ∧
    (reconcile_single_category dir guid name shell user pfx ftyp).2 =
      seqLoopSpec pfx ftyp shell name guid user
        (renameCurrentStep dir
          (((find_session_files dir pfx ftyp guid).insertionSort
            mtimeLE).getLastD default)
          (build_filename pfx ftyp shell (some name) guid user none)
          pfx ftyp shell name guid user
          (find_max_sequence dir pfx ftyp shell name guid user)).1
        ((renameCurrentStep dir
          (((find_session_files dir pfx ftyp guid).insertionSort
            mtimeLE).getLastD default)
          (build_filename pfx ftyp shell (some name) guid user none)
          pfx ftyp shell name guid user
          (find_max_sequence dir pfx ftyp shell name guid user)).2 + 1)
        (((find_session_files dir pfx ftyp guid).insertionSort
          mtimeLE).dropLast) ∧
    (((((find_session_files dir pfx ftyp guid).insertionSort
        mtimeLE).getLastD default).fname =
          build_filename pfx ftyp shell (some name) guid user none ∨
      ¬ (dir.any (fun e => e.fname = build_filename pfx ftyp shell
        (some name) guid user none)) = true) →
      (⟨build_filename pfx ftyp shell (some name) guid user none,
        (((find_session_files dir pfx ftyp guid).insertionSort
          mtimeLE).getLastD default).mtime,
        (((find_session_files dir pfx ftyp guid).insertionSort
          mtimeLE).getLastD default).content⟩ : Entry) ∈
        (reconcile_single_category dir guid name shell user pfx ftyp).2) ∧
    ((¬ (((find_session_files dir pfx ftyp guid).insertionSort
        mtimeLE).getLastD default).fname =
          build_filename pfx ftyp shell (some name) guid user none ∧
      (dir.any (fun e => e.fname = build_filename pfx ftyp shell
        (some name) guid user none)) = true) →
      (⟨build_filename pfx ftyp shell (some name) guid user
          (some (find_max_sequence dir pfx ftyp shell name guid user +
            1).toNat),
        (((find_session_files dir pfx ftyp guid).insertionSort
          mtimeLE).getLastD default).mtime,
        (((find_session_files dir pfx ftyp guid).insertionSort
          mtimeLE).getLastD default).content⟩ : Entry) ∈
        (reconcile_single_category dir guid name shell user pfx ftyp).2 ∧
      ¬ (dir.any (fun e => e.fname = build_filename pfx ftyp shell
        (some name) guid user (some (find_max_sequence dir pfx ftyp shell
          name guid user + 1).toNat))) = true) ∧
    (∀ os ∈ ((find_session_files dir pfx ftyp guid).insertionSort
        mtimeLE).dropLast,
      (has_sequence_number os.fname = true →
        os ∈ (reconcile_single_category dir guid name shell user
          pfx ftyp).2) ∧
      (¬ has_sequence_number os.fname = true →
        ∃ k : Nat,
          find_max_sequence dir pfx ftyp shell name guid user < (k : Int) ∧
          (⟨build_filename pfx ftyp shell (some name) guid user (some k),
            os.mtime, os.content⟩ : Entry) ∈
            (reconcile_single_category dir guid name shell user
              pfx ftyp).2 ∧
          ¬ (dir.any (fun e => e.fname = build_filename pfx ftyp shell
            (some name) guid user (some k))) = true)) := by
  set files := find_session_files dir pfx ftyp guid with hfilesdef
  set target := build_filename pfx ftyp shell (some name) guid user none
    with htargetdef
  set sorted := files.insertionSort mtimeLE with hsorteddef
  set cur := sorted.getLastD default with hcurdef
  set older := sorted.dropLast with holderdef
  set maxSeq := find_max_sequence dir pfx ftyp shell name guid user
    with hmaxdef
  set stM := renameCurrentStep dir cur target pfx ftyp shell name guid
    user maxSeq with hstMdef
  have hfsne : files ≠ [] := by
    intro he
    rw [he] at hlen
    simp at hlen
  have hperm : sorted.Perm files := List.perm_insertionSort mtimeLE files
  have hsne : sorted ≠ [] := by
    intro he
    exact hfsne ((he ▸ hperm).symm.eq_nil)
  have hfsub : ∀ x ∈ files, x ∈ dir := by
    intro x hx
    rw [hfilesdef, find_session_files] at hx
    exact List.mem_of_mem_filter hx
  have hssub : ∀ x ∈ sorted, x ∈ dir :=
    fun x hx => hfsub x (hperm.mem_iff.mp hx)
  have hndfiles : (files.map (fun e => e.fname)).Nodup := by
    refine List.Nodup.sublist ?_ hnd
    rw [hfilesdef, find_session_files]
    exact List.Sublist.map _ (List.filter_sublist dir)
  have hndsorted : (sorted.map (fun e => e.fname)).Nodup :=
    ((hperm.map (fun e => e.fname)).nodup_iff).mpr hndfiles
  have hcurmem : cur ∈ dir := hssub cur (hcurdef ▸ getLastD_mem hsne)
  have holdne : ∀ os ∈ older, os.fname ≠ cur.fname :=
    dropLast_fname_ne_last hsne hndsorted
  have holdmem : ∀ os ∈ older, os ∈ dir :=
    fun os hos => hssub os (List.mem_of_mem_dropLast hos)
  have hmaxge : -1 ≤ maxSeq :=
    find_max_sequence_ge_neg_one pfx ftyp shell name guid user dir
  have hInv0 : SeqInv pfx ftyp shell name guid user dir (maxSeq + 1) :=
    seqInv_base pfx ftyp shell name guid user hsq
  have hunfold : reconcile_single_category dir guid name shell user pfx
      ftyp = (target, seqAssignLoop pfx ftyp shell name guid user
        (stM.1, stM.2 + 1) older) := by
    rw [reconcile_single_category]
    rw [hstMdef, hcurdef, holderdef, hsorteddef, hmaxdef, htargetdef,
      hfilesdef]
    cases hfs : find_session_files dir pfx ftyp guid with
    | nil =>
      rw [hfilesdef, hfs] at hfsne
      exact absurd rfl hfsne
    | cons a rest =>
      cases rest with
      | nil =>
        rw [hfilesdef, hfs] at hlen
        simp at hlen
      | cons b t => rfl
  -- branch facts about the current-file step
  have hbr1 : cur.fname = target → stM = (dir, maxSeq) := by
    intro h
    rw [hstMdef, renameCurrentStep, if_neg (fun hc => hc h)]
  have hcur_ne_seq : cur.fname ≠ build_filename pfx ftyp shell (some name)
      guid user (some (maxSeq + 1).toNat) := by
    intro hc
    have := hInv0 cur hcurmem (maxSeq + 1).toNat true (by
      rw [hc, build_filename])
    rw [Int.toNat_of_nonneg (by omega)] at this
    omega
  have hnodst1 : ¬ (dir.any (fun e => e.fname = build_filename pfx ftyp
      shell (some name) guid user (some (maxSeq + 1).toNat))) = true :=
    seqInv_no_dst pfx ftyp shell name guid user (by omega) hInv0
  have hbr2 : cur.fname ≠ target →
      (dir.any (fun e => e.fname = target)) = true →
      stM = (renameMap dir cur.fname (build_filename pfx ftyp shell
        (some name) guid user (some (maxSeq + 1).toNat)), maxSeq + 1) := by
    intro h1 h2
    rw [hstMdef, renameCurrentStep, if_pos h1, if_pos h2, safe_rename,
      if_neg hcur_ne_seq, if_neg hnodst1]
  have hbr3 : cur.fname ≠ target →
      ¬ (dir.any (fun e => e.fname = target)) = true →
      stM = (renameMap dir cur.fname target, maxSeq) := by
    intro h1 h2
    rw [hstMdef, renameCurrentStep, if_pos h1, if_neg h2, safe_rename,
      if_neg h1, if_neg h2]
  have hInv1 : SeqInv pfx ftyp shell name guid user stM.1 (stM.2 + 1) := by
    by_cases h1 : cur.fname = target
    · rw [hbr1 h1]
      exact hInv0
    · by_cases h2 : (dir.any (fun e => e.fname = target)) = true
      · rw [hbr2 h1 h2]
        exact seqInv_renameMap pfx ftyp shell name guid user (by omega)
          hInv0 cur.fname
      · rw [hbr3 h1 h2]
        intro e' he' k ext hpat
        rw [renameMap, List.mem_map] at he'
        obtain ⟨e, he, hf⟩ := he'
        by_cases hs : e.fname = cur.fname
        · rw [if_pos hs] at hf
          rw [← hf] at hpat
          simp only at hpat
          rw [htargetdef, build_filename] at hpat
          cases hpat
        · rw [if_neg hs] at hf
          rw [← hf] at hpat
          exact hInv0 e he k ext hpat
  have hst2 : stM.2 = maxSeq ∨ stM.2 = maxSeq + 1 := by
    by_cases h1 : cur.fname = target
    · rw [hbr1 h1]
      exact Or.inl rfl
    · by_cases h2 : (dir.any (fun e => e.fname = target)) = true
      · rw [hbr2 h1 h2]
        exact Or.inr rfl
      · rw [hbr3 h1 h2]
        exact Or.inl rfl
  have h0' : 0 ≤ stM.2 + 1 := by
    rcases hst2 with h | h <;> omega
  have hspec : (reconcile_single_category dir guid name shell user pfx
      ftyp).2 = seqLoopSpec pfx ftyp shell name guid user stM.1
        (stM.2 + 1) older := by
    rw [hunfold]
    exact seqAssignLoop_eq_spec pfx ftyp shell name guid user older stM.1
      (stM.2 + 1) h0' hInv1
  have hshape_osq : ∀ o ∈ older, ¬ has_sequence_number o.fname = true →
      ∀ k : Nat, o.fname ≠ FName.logf pfx ftyp shell (some (name, some k))
        guid user true := by
    intro o ho hosq k hc
    have hk := hsq o (holdmem o ho) k true hc
    apply hosq
    rw [hc]
    show decide (k < 1000) = true
    exact decide_eq_true hk
  have hndolder : (older.map (fun e => e.fname)).Nodup := by
    refine List.Nodup.sublist ?_ hndsorted
    have hsub2 : older.Sublist sorted := by
      rw [holderdef]
      exact List.dropLast_sublist sorted
    exact List.Sublist.map _ hsub2
  have hcur_in_st : ∀ os ∈ older, os ∈ stM.1 := by
    intro os hos
    by_cases h1 : cur.fname = target
    · rw [hbr1 h1]
      exact holdmem os hos
    · by_cases h2 : (dir.any (fun e => e.fname = target)) = true
      · rw [hbr2 h1 h2]
        exact renameMap_mem_of_ne _ _ (holdmem os hos) (holdne os hos)
      · rw [hbr3 h1 h2]
        exact renameMap_mem_of_ne _ _ (holdmem os hos) (holdne os hos)
  refine ⟨by rw [hunfold], ?_, ?_, ?_, by rw [hspec], ?_, ?_, ?_⟩
  · exact fun f hf => sorted_last_max hfsne f hf
  · rw [hunfold]
    simp only
    rw [seqAssignLoop_shape]
    rw [hstMdef]
    exact renameCurrentStep_shape dir cur target pfx ftyp shell name guid
      user maxSeq
  · rw [hunfold]
    simp only
    refine seqAssignLoop_nodup pfx ftyp shell name guid user older stM.1
      (stM.2 + 1) ?_
    rw [hstMdef]
    exact renameCurrentStep_nodup cur target pfx ftyp shell name guid user
      maxSeq hnd
  · -- current file keeps / takes the canonical name
    intro hpre
    rw [hunfold]
    simp only
    by_cases h1 : cur.fname = target
    · have hent : (⟨target, cur.mtime, cur.content⟩ : Entry) = cur := by
        rw [← h1]
      rw [hent]
      refine seqAssignLoop_mem pfx ftyp shell name guid user older stM.1
        (stM.2 + 1) cur ?_ ?_
      · by_cases h2 : (dir.any (fun e => e.fname = target)) = true
        · rw [hbr1 h1]
          exact hcurmem
        · rw [hbr1 h1]
          exact hcurmem
      · intro o ho _ hc
        exact holdne o ho hc
    · have h2 : ¬ (dir.any (fun e => e.fname = target)) = true := by
        rcases hpre with hpre | hpre
        · exact absurd hpre h1
        · exact hpre
      refine seqAssignLoop_mem pfx ftyp shell name guid user older stM.1
        (stM.2 + 1) _ ?_ ?_
      · rw [hbr3 h1 h2]
        exact renameMap_mem_renamed _ _ hcurmem rfl
      · intro o ho _ hc
        apply h2
        rw [List.any_eq_true]
        exact ⟨o, holdmem o ho, decide_eq_true hc⟩
  · -- occupied canonical name: fresh sequence number for the current file
    intro ⟨h1, h2⟩
    constructor
    · rw [hunfold]
      simp only
      refine seqAssignLoop_mem pfx ftyp shell name guid user older stM.1
        (stM.2 + 1) _ ?_ ?_
      · rw [hbr2 h1 h2]
        exact renameMap_mem_renamed _ _ hcurmem rfl
      · intro o ho _ hc
        have := hInv0 o (holdmem o ho) (maxSeq + 1).toNat true (by
          rw [hc, build_filename])
        rw [Int.toNat_of_nonneg (by omega)] at this
        omega
    · exact hnodst1
  · -- older files
    intro os hos
    constructor
    · intro hseq
      rw [hunfold]
      simp only
      refine seqAssignLoop_mem pfx ftyp shell name guid user older stM.1
        (stM.2 + 1) os (hcur_in_st os hos) ?_
      intro o ho hoq hc
      apply hoq
      rw [hc, hseq]
    · intro hosq
      obtain ⟨k, hk, hmem⟩ := seqLoopSpec_assign pfx ftyp shell name guid
        user older stM.1 (stM.2 + 1) os os h0' (hcur_in_st os hos) hos rfl
        hosq hndolder hshape_osq
      refine ⟨k, ?_, ?_, ?_⟩
      · rcases hst2 with h | h <;> omega
      · rw [hspec]
        exact hmem
      · intro hc
        rw [List.any_eq_true] at hc
        obtain ⟨e, he, hdec⟩ := hc
        rw [decide_eq_true_eq] at hdec
        have := hInv0 e he k true (by rw [hdec, build_filename])
        rcases hst2 with h | h <;> omega

theorem c4_reconcile_single_category_witness :
    ((([⟨FName.logf "" "s" "bash" none "g" "u" true, 10, "a"⟩,
        ⟨FName.logf "" "s" "bash" (some ("nm", none)) "g" "u" true, 20,
          "b"⟩] : Dir).map (fun e => e.fname)).Nodup ∧
    2 ≤ (find_session_files
      [⟨FName.logf "" "s" "bash" none "g" "u" true, 10, "a"⟩,
       ⟨FName.logf "" "s" "bash" (some ("nm", none)) "g" "u" true, 20,
         "b"⟩] "" "s" "g").length) ∧
    (reconcile_single_category
      [⟨FName.logf "" "s" "bash" none "g" "u" true, 10, "a"⟩,
       ⟨FName.logf "" "s" "bash" (some ("nm", none)) "g" "u" true, 20,
         "b"⟩] "g" "nm" "bash" "u" "" "s").1 =
      build_filename "" "s" "bash" (some "nm") "g" "u" none :=
  ⟨⟨by decide, by decide⟩,
    (c4_reconcile_single_category
      [⟨FName.logf "" "s" "bash" none "g" "u" true, 10, "a"⟩,
       ⟨FName.logf "" "s" "bash" (some ("nm", none)) "g" "u" true, 20,
         "b"⟩] "g" "nm" "bash" "u" "" "s" (by decide)
      (by
        intro e he k ext hc
        simp only [List.mem_cons, List.not_mem_nil, or_false] at he
        rcases he with he | he <;> rw [he] at hc <;> simp at hc)
      (by decide)).1⟩

/-! ### Directory-level reconciliation -/

/-- A session directory name on the structural grammar of
`build_session_directory` (`log-command.py:1255-1274`):
`{name}__{guid}_{user}` (the name component present) or `__{guid}_{user}`
(unnamed), or any other directory name. -/
inductive DirName
  | sdir (nm : Option String) (guid user : String)
  | odir (s : String)
deriving DecidableEq

/-- A character rewritten to `_` by `sanitize_dirname`
(`log-command.py:1105-1120`): the Windows/Unix-problematic set and the
control range `\x00`-`\x1f`. -/
def dirBadChar (c : Char) : Bool :=
  c = '<' ∨ c = '>' ∨ c = ':' ∨ c = '"' ∨ c = '/' ∨ c = '\\' ∨
  c = '|' ∨ c = '?' ∨ c = '*' ∨ c.toNat < 32

/-- `sanitize_dirname` (`log-command.py:1105-1120`). -/
def sanitize_dirname (name : String) : String :=
  pyTake 50 (String.mk (name.toList.map (fun c =>
    if dirBadChar c then '_' else c)))

/-- `build_session_directory` (`log-command.py:1255-1274`); an empty name
is falsy in Python and yields the unnamed form. -/
def build_session_directory (sessionName : Option String)
    (guid user : String) : DirName :=
  match sessionName with
  | some nm =>
    if nm = "" then DirName.sdir none guid user
    else DirName.sdir (some (sanitize_dirname nm)) guid user
  | none => DirName.sdir none guid user

/-- The `session_id in item.name` test of `find_directory_by_guid`
(`log-command.py:1122-1133`), on the structural grammar: a structured
directory name contains the session id exactly when its guid component is
it (components are taken not to collide across separators); a free-form
name is tested by substring. -/
def dnameHasGuid (d : DirName) (guid : String) : Bool :=
  match d with
  | DirName.sdir _ g _ => g = guid
  | DirName.odir s => strHasSub s guid

/-- `extract_name_from_directory` (`log-command.py:1135-1151`) on the
structural grammar: the rendered `{nm}__{guid}_{user}` starts with `__`
exactly when `nm ++ "__"` does (then the directory reads as unnamed);
otherwise the greedy `^(.+)__{guid}_` match recovers the nonempty name
component when the guid component matches. -/
def extract_name_from_directory (d : DirName) (guid : String) :
    Option String :=
  match d with
  | DirName.sdir (some nm) g _ =>
    if "__".isPrefixOf (nm ++ "__") then none
    else if nm ≠ "" ∧ g = guid then some nm else none
  | _ => none

/-- One file's candidate destination in `_rename_files_for_session_change`
(`log-command.py:1234-1244`), on the structural grammar: named→renamed
replaces the old session name where it occurs, i.e. as the name component;
unnamed→named matches the unnamed form `.type_shell_{guid}_{user}` and
inserts the new name before the guid. -/
def renameOneForChange (old : Option String) (newName guid : String) :
    FName → Option FName
  | FName.logf p t sh (some (nm, sq)) g u ext =>
    match old with
    | some onm =>
      if nm = onm then
        some (FName.logf p t sh (some (newName, sq)) g u ext)
      else none
    | none => none
  | FName.logf p t sh none g u ext =>
    match old with
    | some _ => none
    | none =>
      if g = guid then
        some (FName.logf p t sh (some (newName, none)) g u ext)
      else none
  | FName.other _ => none

/-- `_rename_files_for_session_change` (`log-command.py:1214-1252`): walk
the directory listing, renaming each file whose candidate destination
exists, differs from its name and is not already taken — exactly the
no-op/failure conditions of `safe_rename`. -/
def renameFilesForSessionChange (files : Dir) (old : Option String)
    (newName guid : String) : Dir :=
  files.foldl (fun acc f =>
    match renameOneForChange old newName guid f.fname with
    | some nf => (safe_rename acc f.fname nf).1
    | none => acc) files

/-- An entry of the sesslogs base directory: a session directory and the
files it holds, in listing order. -/
structure SDirEnt where
  dname : DirName
  files : Dir
deriving DecidableEq

/-- `reconcile_session_directory` (`log-command.py:1154-1211`): use the
expected directory when it already exists; otherwise rename the first
directory carrying the guid to the expected name (cascading the file
renames when the expected name is truthy) and report the extracted old
name; `renameFails` injects the rename's `except` path, falling back to
the existing directory unchanged; with no directory found, create the
expected one empty. -/
def reconcile_session_directory (base : List SDirEnt) (guid : String)
    (expectedName : Option String) (user : String) (renameFails : Bool) :
    DirName × Option String × List SDirEnt :=
  if base.any (fun d => d.dname = build_session_directory expectedName
      guid user) then
    (build_session_directory expectedName guid user, none, base)
  else
    match base.find? (fun d => dnameHasGuid d.dname guid) with
    | some d =>
      if renameFails then (d.dname, none, base)
      else
        (build_session_directory expectedName guid user,
         extract_name_from_directory d.dname guid,
         base.map (fun d' =>
           if d'.dname = d.dname then
             ⟨build_session_directory expectedName guid user,
              match expectedName with
              | some nm =>
                if nm = "" then d.files
                else renameFilesForSessionChange d.files
                  (extract_name_from_directory d.dname guid) nm guid
              | none => d.files⟩
           else d'))
    | none =>
      (build_session_directory expectedName guid user, none,
       base ++ [⟨build_session_directory expectedName guid user, []⟩])

/-- Every branch of `reconcile_single_category` returns the canonical
unsequenced name as the write target (`log-command.py:1440,1449,1488`). -/
theorem reconcile_fst (dir : Dir) (guid name shell user pfx ftyp :
    String) : (reconcile_single_category dir guid name shell user pfx
      ftyp).1 = build_filename pfx ftyp shell (some name) guid user
        none := by
  rw [reconcile_single_category]
  cases hfs : find_session_files dir pfx ftyp guid with
  | nil => rfl
  | cons a rest =>
    cases rest with
    | nil =>
      show (if a.fname = build_filename pfx ftyp shell (some name) guid
          user none then
        (build_filename pfx ftyp shell (some name) guid user none, dir)
      else
        (build_filename pfx ftyp shell (some name) guid user none,
         (safe_rename dir a.fname (build_filename pfx ftyp shell
           (some name) guid user none)).1)).1 =
        build_filename pfx ftyp shell (some name) guid user none
      split <;> rfl
    | cons b t => rfl

/-- C5 counterexample: with the canonical name held by the older of two
matching files, a second per-category reconciliation run performs an
additional rename (the first run freed the canonical name, so the second
run moves the newest file onto it), so the directory after the second run
differs from the directory after the first. -/
theorem c5_counterexample :
    (reconcile_single_category
      (reconcile_single_category
        [⟨FName.logf "" "s" "bash" (some ("nm", none)) "g" "u" true, 10,
          "a"⟩,
         ⟨FName.logf "" "s" "bash" none "g" "u" true, 20, "b"⟩]
        "g" "nm" "bash" "u" "" "s").2
      "g" "nm" "bash" "u" "" "s").2 ≠
    (reconcile_single_category
      [⟨FName.logf "" "s" "bash" (some ("nm", none)) "g" "u" true, 10,
        "a"⟩,
       ⟨FName.logf "" "s" "bash" none "g" "u" true, 20, "b"⟩]
      "g" "nm" "bash" "u" "" "s").2 := by decide

/-- After a failure-free `reconcile_session_directory` run, the expected
directory name is present in the base and is the returned directory. -/
theorem reconcile_dir_post (base : List SDirEnt) (guid : String)
    (en : Option String) (user : String) :
    ((reconcile_session_directory base guid en user false).2.2.any
      (fun d => d.dname = build_session_directory en guid user)) = true ∧
    (reconcile_session_directory base guid en user false).1 =
      build_session_directory en guid user := by
  by_cases h0 : (base.any (fun d => d.dname = build_session_directory en
      guid user)) = true
  · rw [reconcile_session_directory, if_pos h0]
    exact ⟨h0, rfl⟩
  · rw [reconcile_session_directory, if_neg h0]
    cases hf : base.find? (fun d => dnameHasGuid d.dname guid) with
    | none =>
      simp only [hf]
      constructor
      · rw [List.any_append]
        simp
      · trivial
    | some d =>
      simp only [hf]
      rw [if_neg Bool.false_ne_true]
      constructor
      · have hd : d ∈ base := List.mem_of_find?_eq_some hf
        rw [List.any_eq_true]
        exact ⟨_, List.mem_map.mpr ⟨d, hd, if_pos rfl⟩,
          decide_eq_true rfl⟩
      · rfl

/-- C5 (amended): with an unchanged effective name, a second failure-free
directory reconciliation returns the same directory, reports no rename and
leaves the base untouched; the per-category write target is the same on
every run, whatever the directory state; a category with no matching file
leaves the directory untouched; and a category with exactly one matching
file is idempotent: a second per-category run changes nothing. (With two
or more matching files a second run can still rename — the canonical name
freed by sequencing is re-taken — which is the accompanying
counterexample.) -/
theorem c5_reconciliation_amended
    (base : List SDirEnt) (guid user : String) (en : Option String)
    (dir : Dir) (pfx ftyp shell name : String) (f : Entry)
    (hone : find_session_files dir pfx ftyp guid = [f]) :
    reconcile_session_directory
      (reconcile_session_directory base guid en user false).2.2 guid en
      user false =
      ((reconcile_session_directory base guid en user false).1, none,
       (reconcile_session_directory base guid en user false).2.2) ∧
    (∀ d d' : Dir, (reconcile_single_category d guid name shell user pfx
      ftyp).1 = (reconcile_single_category d' guid name shell user pfx
      ftyp).1) ∧
    (∀ d : Dir, find_session_files d pfx ftyp guid = [] →
      (reconcile_single_category d guid name shell user pfx ftyp).2 =
        d) ∧
    (reconcile_single_category (reconcile_single_category dir guid name
      shell user pfx ftyp).2 guid name shell user pfx ftyp).2 =
      (reconcile_single_category dir guid name shell user pfx ftyp).2 := by
  refine ⟨?_, ?_, ?_, ?_⟩
  · obtain ⟨hany, hfst⟩ := reconcile_dir_post base guid en user
    rw [reconcile_session_directory, if_pos hany, hfst]
  · intro d d'
    rw [reconcile_fst, reconcile_fst]
  · intro d hd
    rw [reconcile_single_category]
    simp only [hd]
  · have hmatch : matchesCategory f.fname pfx ftyp guid = true := by
      have hm : f ∈ find_session_files dir pfx ftyp guid := by
        rw [hone]
        exact List.mem_singleton.mpr rfl
      rw [find_session_files] at hm
      exact (List.mem_filter.mp hm).2
    have htgt : matchesCategory (build_filename pfx ftyp shell (some name)
        guid user none) pfx ftyp guid = true := by
      rw [build_filename, matchesCategory]
      simp
    by_cases h : f.fname = build_filename pfx ftyp shell (some name) guid
      user none
    · have hd1 : (reconcile_single_category dir guid name shell user pfx
          ftyp).2 = dir := by
        rw [reconcile_single_category]
        simp only [hone]
        rw [if_pos h]
      rw [hd1]
      exact hd1
    · have hocc : ¬ (dir.any (fun e => e.fname = build_filename pfx ftyp
          shell (some name) guid user none)) = true := by
        intro hc
        rw [List.any_eq_true] at hc
        obtain ⟨e, he, hdec⟩ := hc
        rw [decide_eq_true_eq] at hdec
        have hem : e ∈ find_session_files dir pfx ftyp guid := by
          rw [find_session_files]
          refine List.mem_filter.mpr ⟨he, ?_⟩
          rw [hdec]
          exact htgt
        rw [hone, List.mem_singleton] at hem
        rw [hem] at hdec
        exact h hdec
      have hd1 : (reconcile_single_category dir guid name shell user pfx
          ftyp).2 = renameMap dir f.fname (build_filename pfx ftyp shell
            (some name) guid user none) := by
        rw [reconcile_single_category]
        simp only [hone]
        rw [if_neg h]
        simp only
        rw [safe_rename, if_neg h, if_neg hocc]
      have hfiles2 : find_session_files (renameMap dir f.fname
          (build_filename pfx ftyp shell (some name) guid user none)) pfx
          ftyp guid =
          [⟨build_filename pfx ftyp shell (some name) guid user none,
            f.mtime, f.content⟩] := by
        rw [find_session_files, renameMap, List.filter_map]
        have hcongr : List.filter ((fun e => matchesCategory e.fname pfx
            ftyp guid) ∘ (fun e => if e.fname = f.fname then
              (⟨build_filename pfx ftyp shell (some name) guid user none,
                e.mtime, e.content⟩ : Entry) else e)) dir =
            List.filter (fun e => matchesCategory e.fname pfx ftyp guid)
              dir := by
          apply List.filter_congr
          intro e he
          by_cases hef : e.fname = f.fname
          · simp only [Function.comp, if_pos hef]
            show matchesCategory (build_filename pfx ftyp shell (some
              name) guid user none) pfx ftyp guid = matchesCategory
              e.fname pfx ftyp guid
            rw [htgt, hef, hmatch]
          · simp only [Function.comp, if_neg hef]
        rw [hcongr]
        have hfd : List.filter (fun e => matchesCategory e.fname pfx ftyp
            guid) dir = [f] := by
          have hh := hone
          rw [find_session_files] at hh
          exact hh
        rw [hfd, List.map_cons, List.map_nil, if_pos rfl]
      rw [hd1, reconcile_single_category]
      simp only [hfiles2]
      rw [if_pos trivial]

theorem c5_reconciliation_amended_witness :
    find_session_files
      [⟨FName.logf "" "s" "bash" none "g" "u" true, 10, "a"⟩] "" "s" "g" =
      [⟨FName.logf "" "s" "bash" none "g" "u" true, 10, "a"⟩] ∧
    (reconcile_single_category (reconcile_single_category
      [⟨FName.logf "" "s" "bash" none "g" "u" true, 10, "a"⟩] "g" "nm"
      "bash" "u" "" "s").2 "g" "nm" "bash" "u" "" "s").2 =
      (reconcile_single_category
        [⟨FName.logf "" "s" "bash" none "g" "u" true, 10, "a"⟩] "g" "nm"
        "bash" "u" "" "s").2 :=
  ⟨by decide,
   (c5_reconciliation_amended [] "g" "u" none
     [⟨FName.logf "" "s" "bash" none "g" "u" true, 10, "a"⟩] "" "s" "bash"
     "nm" ⟨FName.logf "" "s" "bash" none "g" "u" true, 10, "a"⟩
     (by decide)).2.2.2⟩

/-! ### The entry point's parse boundary -/

/-- A UTF-8 continuation byte. -/
def utf8Cont (b : Nat) : Bool := 0x80 ≤ b ∧ b < 0xC0

/-- Strict UTF-8 decoding of a byte sequence, as
`bytes.decode('utf-8')` performs it: continuation bytes and overlong
leads (`C0`/`C1`) rejected as leads, overlong two/three/four-byte forms,
surrogates (`ED A0..`) and codepoints beyond `U+10FFFF` (`F4 90..`, leads
`F5..FF`) rejected; fuel is the byte count, consumed one lead per step. -/
def utf8DecodeAux : Nat → List Nat → Option (List Char)
  | _, [] => some []
  | 0, _ :: _ => none
  | fuel+1, b :: rest =>
    if b < 0x80 then
      (utf8DecodeAux fuel rest).map (fun cs => Char.ofNat b :: cs)
    else if b < 0xC2 then none
    else if b < 0xE0 then
      match rest with
      | c1 :: rest2 =>
        if utf8Cont c1 then
          (utf8DecodeAux fuel rest2).map (fun cs =>
            Char.ofNat ((b - 0xC0) * 64 + (c1 - 0x80)) :: cs)
        else none
      | _ => none
    else if b < 0xF0 then
      match rest with
      | c1 :: c2 :: rest2 =>
        if utf8Cont c1 ∧ utf8Cont c2 ∧ (b ≠ 0xE0 ∨ 0xA0 ≤ c1) ∧
            (b ≠ 0xED ∨ c1 < 0xA0) then
          (utf8DecodeAux fuel rest2).map (fun cs =>
            Char.ofNat ((b - 0xE0) * 4096 + (c1 - 0x80) * 64 +
              (c2 - 0x80)) :: cs)
        else none
      | _ => none
    else if b < 0xF5 then
      match rest with
      | c1 :: c2 :: c3 :: rest2 =>
        if utf8Cont c1 ∧ utf8Cont c2 ∧ utf8Cont c3 ∧
            (b ≠ 0xF0 ∨ 0x90 ≤ c1) ∧ (b ≠ 0xF4 ∨ c1 < 0x90) then
          (utf8DecodeAux fuel rest2).map (fun cs =>
            Char.ofNat ((b - 0xF0) * 262144 + (c1 - 0x80) * 4096 +
              (c2 - 0x80) * 64 + (c3 - 0x80)) :: cs)
        else none
      | _ => none
    else none

/-- `sys.stdin.buffer.read().decode('utf-8')` (`log-command.py:1896`):
`none` is a raised `UnicodeDecodeError`. -/
def utf8Decode (bs : List Nat) : Option String :=
  (utf8DecodeAux bs.length bs).map String.mk

/-- The persistent state `main` can touch: session directories with their
log files, and the flat per-session state records. -/
structure World where
  sessionDirs : List SDirEnt
  stateFiles : FS
deriving DecidableEq

/-- The acknowledgment line `print('{"continue": true}')`
(`log-command.py:1900,1965,1969,1991`). -/
def ackLine : String := "\x7b\"continue\": true\x7d"

/-- An invocation's observable outcome: final persistent state and stdout
lines, with a zero (`ok`) or nonzero (`crash`, uncaught exception) exit
status. -/
inductive MainOutcome
  | ok (w : World) (stdout : List String)
  | crash (w : World) (stdout : List String)
deriving DecidableEq

/-- `main` (`log-command.py:1884-1992`) to its parse boundary
(`log-command.py:1893-1901`): stdin bytes that do not decode as UTF-8
raise `UnicodeDecodeError`, which the `except json.JSONDecodeError`
clause does not catch — the process dies with nothing on stdout and the
state untouched; decoded text that `json.loads` rejects is caught,
acknowledged and the function returns with the state untouched; on a
parsed object the remainder of `main` (`rest`, abstract here) runs and
returns normally. `jsonLoads` abstracts `json.loads`. -/
def mainModel {O : Type} (jsonLoads : String → Option O)
    (rest : O → World → World × List String) (w : World)
    (stdin : List Nat) : MainOutcome :=
  match utf8Decode stdin with
  | none => MainOutcome.crash w []
  | some s =>
    match jsonLoads s with
    | none => MainOutcome.ok w [ackLine]
    | some o => MainOutcome.ok (rest o w).1 (rest o w).2

/-- C1: the always-acknowledge invariant fails. The single stdin byte
`0xFF` is not valid UTF-8; `sys.stdin.buffer.read().decode('utf-8')`
(`log-command.py:1896`) raises `UnicodeDecodeError`, which is not a
`json.JSONDecodeError` (`log-command.py:1898`), so — whatever the JSON
parser and the rest of `main` would have done — the process dies with no
acknowledgment line on stdout and a failing exit status. -/
theorem c1_main_crash_on_invalid_utf8 {O : Type}
    (jsonLoads : String → Option O)
    (rest : O → World → World × List String) (w : World) :
    mainModel jsonLoads rest w [0xFF] = MainOutcome.crash w [] := rfl

/-- C8 counterexample: stdin consisting of the single byte `0xFF` is not
valid JSON, yet the invocation does not acknowledge and succeed: the
UTF-8 decode error escapes the JSON-error handler and the process
crashes. -/
theorem c8_counterexample :
    mainModel (fun _ => (none : Option Unit))
      (fun _ w => (w, [])) ⟨[], []⟩ [0xFF] ≠
    MainOutcome.ok ⟨[], []⟩ [ackLine] := by decide

/-- C8 (amended): for every invocation whose standard input decodes as
UTF-8 but is rejected by `json.loads`, `main` emits exactly the minimal
acknowledgment line, returns normally (success), and leaves the
persistent state — session log files, session directories, per-session
state records — untouched; stdin bytes that do not even decode as UTF-8
instead crash the process unacknowledged. -/
theorem c8_bad_json_amended {O : Type} (jsonLoads : String → Option O)
    (rest : O → World → World × List String) (w : World)
    (bs : List Nat) (s : String) (hdec : utf8Decode bs = some s)
    (hbad : jsonLoads s = none) :
    mainModel jsonLoads rest w bs = MainOutcome.ok w [ackLine] := by
  rw [mainModel]
  simp only [hdec, hbad]

theorem c8_bad_json_amended_witness :
    utf8Decode [0x61] = some "a" ∧
    (fun _ => (none : Option Unit)) "a" = none ∧
    mainModel (fun _ => (none : Option Unit)) (fun _ w => (w, []))
      ⟨[], []⟩ [0x61] = MainOutcome.ok ⟨[], []⟩ [ackLine] :=
  ⟨by decide, rfl,
   c8_bad_json_amended (fun _ => (none : Option Unit))
     (fun _ w => (w, [])) ⟨[], []⟩ [0x61] "a" (by decide) rfl⟩

/-- C10: with an absent or empty effective session name,
`reconcile_session_files` (`log-command.py:1497-1499`) returns an empty
category-to-target mapping and the directory exactly as given — no file
is renamed, so canonical renaming and sequence assignment only ever run
once the session has an effective name. -/
theorem c10_reconcile_session_files_unnamed (dir : Dir)
    (guid shell user : String) :
    reconcile_session_files dir guid none shell user = ([], dir) ∧
    reconcile_session_files dir guid (some "") shell user = ([], dir) := by
  constructor <;> rfl
